import Mathlib

/-!
Verification of the meli mail client backend core, against its Rust sources:
the IMAP backend (`melib/src/backends/imap.rs`), the IMAP wire parser
(`melib/src/backends/imap_async/protocol_parser.rs`) and the threading engine
(`melib/src/mailbox/thread.rs`).  Rust strings are embedded as `List Char`
(the inputs in question are ASCII); machine integers (`usize`) are embedded as
`Nat` (none of the verified properties depend on 64-bit overflow, and the
parsers reject non-digit input before any arithmetic).  Fallible Rust paths
(`Result`, panics) are embedded as `Except`.
-/

/-! ## Generic list/string helpers used by the embeddings -/

/-- `Char.ofNat 123`, the opening curly brace (kept out of literals). -/
def lbrace : Char := Char.ofNat 123

/-- `Char.ofNat 125`, the closing curly brace (kept out of literals). -/
def rbrace : Char := Char.ofNat 125

/-- Rust `str::starts_with` on character lists. -/
def startsWithL : List Char → List Char → Bool
  | _, [] => true
  | [], _ :: _ => false
  | c :: l, p :: ps => c == p && startsWithL l ps

/-- Rust `str::ends_with` on character lists. -/
def endsWithL (l pat : List Char) : Bool := startsWithL l.reverse pat.reverse

/-- Rust `str::contains` (substring containment) on character lists. -/
def containsL : List Char → List Char → Bool
  | [], pat => pat.isEmpty
  | c :: rest, pat => startsWithL (c :: rest) pat || containsL rest pat

/-- Rust `str::trim_start` (drop leading whitespace). -/
def trimStartL (l : List Char) : List Char := l.dropWhile Char.isWhitespace

/-- Rust `str::trim_end` (drop trailing whitespace). -/
def trimEndL (l : List Char) : List Char := (l.reverse.dropWhile Char.isWhitespace).reverse

/-- Rust `str::trim`. -/
def trimL (l : List Char) : List Char := trimEndL (trimStartL l)

/-- Numeric value of a list of ASCII digits (most significant first),
accumulated exactly as repeated `*10 + digit`. -/
def digitsToNat (ds : List Char) : Nat :=
  ds.foldl (fun acc c => acc * 10 + (c.toNat - 48)) 0

/-- Rust `usize::from_str`: optional leading `+`, then one or more ASCII
digits; anything else is an error.  (64-bit overflow is not modelled; the
verified properties never exercise it.) -/
def parseUsize (l : List Char) : Except String Nat :=
  let l := match l with
    | '+' :: rest => rest
    | _ => l
  if l.isEmpty then .error "cannot parse integer from empty string"
  else if l.all Char.isDigit then .ok (digitsToNat l)
  else .error "invalid digit found in string"

/-- Prepend a character to the first piece of a split (used by `splitRN`). -/
def consFirst (c : Char) : List (List Char) → List (List Char)
  | [] => [[c]]
  | h :: t => (c :: h) :: t

/-- Rust `str::split("\r\n")`: leftmost, non-overlapping matches of the
two-character separator. -/
def splitRN : List Char → List (List Char)
  | [] => [[]]
  | [c] => [[c]]
  | c :: d :: rest =>
    if c = '\r' ∧ d = '\n' then [] :: splitRN rest
    else consFirst c (splitRN (d :: rest))

/-- `splitRN` never returns the empty list of pieces. -/
theorem splitRN_ne_nil (l : List Char) : splitRN l ≠ [] := by
  match l with
  | [] => simp [splitRN]
  | [c] => simp [splitRN]
  | c :: d :: rest =>
    rw [splitRN.eq_3]
    split
    · simp
    · rcases h : splitRN (d :: rest) with _ | ⟨h', t⟩ <;> simp [consFirst]

/-- Rust `str::split_rn().last().unwrap_or(val)`, as used by
`ImapResponse::from`. -/
def lastLineRN (l : List Char) : List Char :=
  (splitRN l).getLastD l

/-! ## C8: `impl Into<Result<()>> for ImapResponse`
(protocol_parser.rs lines 262-275), with the `ResponseCode` and
`ImapResponse` data types from lines 137-168 and 227-234. -/

/-- `ResponseCode` from protocol_parser.rs lines 137-168. -/
inductive ResponseCodeM where
  | alert (msg : String)
  | badcharset (charsets : Option String)
  | capability
  | parseErr (msg : String)
  | permanentflags (s : String)
  | readOnly
  | readWrite
  | trycreate
  | uidnext (n : Nat)
  | uidvalidity (n : Nat)
  | unseen (n : Nat)
deriving DecidableEq

/-- `ImapResponse` from protocol_parser.rs lines 227-234. -/
inductive ImapResponseM where
  | ok (c : ResponseCodeM)
  | no (c : ResponseCodeM)
  | bad (c : ResponseCodeM)
  | preauth (c : ResponseCodeM)
  | bye (c : ResponseCodeM)
deriving DecidableEq

/-- Modelled from the spec: `MeliError` (melib's `error.rs` is not under
`src/`).  Per the spec's error taxonomy it carries a human-readable message;
`chain_err_summary` attaches a summary string. -/
structure MeliErrorM where
  summary : Option String
  details : String
deriving DecidableEq

/-- `MeliError::new(msg)`. -/
def meliErrorNew (msg : String) : MeliErrorM := ⟨none, msg⟩

/-- Rust `#[derive(Debug)]` output for `ResponseCode` (the `format!("{:?}", err)`
used by the `Into<Result<()>>` impl).  String escaping inside the payload is
not modelled; the verified property does not depend on it. -/
def responseCodeDebugFmt : ResponseCodeM → String
  | .alert m => "Alert(\"" ++ m ++ "\")"
  | .badcharset none => "Badcharset(None)"
  | .badcharset (some s) => "Badcharset(Some(\"" ++ s ++ "\"))"
  | .capability => "Capability"
  | .parseErr m => "Parse(\"" ++ m ++ "\")"
  | .permanentflags s => "Permanentflags(\"" ++ s ++ "\")"
  | .readOnly => "ReadOnly"
  | .readWrite => "ReadWrite"
  | .trycreate => "Trycreate"
  | .uidnext n => "Uidnext(" ++ toString n ++ ")"
  | .uidvalidity n => "Uidvalidity(" ++ toString n ++ ")"
  | .unseen n => "Unseen(" ++ toString n ++ ")"

/-- `impl Into<Result<()>> for ImapResponse` (protocol_parser.rs 262-275):
OK/PREAUTH/BYE succeed; NO/BAD fail.  A NO/BAD with an `Alert` code wraps the
alert text directly; any other code is formatted with `{:?}` and the summary
"IMAP NO Response." / "IMAP BAD Response." is chained on. -/
def imapResponseIntoResult : ImapResponseM → Except MeliErrorM Unit
  | .ok _ => .ok ()
  | .preauth _ => .ok ()
  | .bye _ => .ok ()
  | .no (.alert msg) => .error (meliErrorNew msg)
  | .bad (.alert msg) => .error (meliErrorNew msg)
  | .no err => .error ⟨some "IMAP NO Response.", responseCodeDebugFmt err⟩
  | .bad err => .error ⟨some "IMAP BAD Response.", responseCodeDebugFmt err⟩

/-- The message a `ResponseCode` carries into the error branch: the alert text
for `Alert`, the `{:?}` rendering otherwise. -/
def responseCodeMessage : ResponseCodeM → String
  | .alert m => m
  | c => responseCodeDebugFmt c

/-- C8: for every `ImapResponse` value, conversion into `Result<()>` yields
`Ok(())` exactly for the Ok, Preauth and Bye variants, and an `Err` carrying
the response's message exactly for the No and Bad variants. -/
theorem c8_imap_response_into_result :
    ∀ c : ResponseCodeM,
      imapResponseIntoResult (.ok c) = .ok ()
      ∧ imapResponseIntoResult (.preauth c) = .ok ()
      ∧ imapResponseIntoResult (.bye c) = .ok ()
      ∧ (∃ e, imapResponseIntoResult (.no c) = .error e
          ∧ e.details = responseCodeMessage c)
      ∧ (∃ e, imapResponseIntoResult (.bad c) = .error e
          ∧ e.details = responseCodeMessage c) := by
  intro c
  cases c <;>
    simp [imapResponseIntoResult, responseCodeMessage, responseCodeDebugFmt,
      meliErrorNew]

/-! ## C6: octet-counted literals in FETCH responses
(`literal`, protocol_parser.rs lines 1305-1313, and the `RFC822 {` branch of
`uid_fetch_response`, lines 522-540; both use the identical nom combinator
`length_data(delimited(tag("{"), map_res(digit1, usize::from_str), tag("}\r\n")))`).
nom's `length_data` returns `Err(Incomplete)` when fewer than the announced
number of bytes remain; the caller treats any non-`Ok` as a parse error. -/

/-- The nom combinator used by `literal` and by the `RFC822` branch of
`uid_fetch_response`: parse `{`, one or more ASCII digits, `}\r\n`, then
consume exactly that many bytes.  Returns `(remaining, body)`. -/
def literalParse : List Char → Except String (List Char × List Char)
  | [] => .error "tag: expected open-brace"
  | c :: rest =>
    if c = lbrace then
      let ds := rest.takeWhile Char.isDigit
      if ds.isEmpty then .error "digit1: no digits"
      else
        let rest2 := rest.drop ds.length
        if startsWithL rest2 (rbrace :: '\r' :: '\n' :: []) then
          let n := digitsToNat ds
          let rest3 := rest2.drop 3
          if rest3.length < n then .error "Incomplete"
          else .ok (rest3.drop n, rest3.take n)
        else .error "tag: expected close-brace CRLF"
    else .error "tag: expected open-brace"

/-- The `RFC822 {` branch of `uid_fetch_response` (protocol_parser.rs
522-540): after matching the field name, `i` is advanced past `"RFC822 "`
(7 characters) and the literal combinator runs on the remainder; any failure
becomes the `Unexpected input while parsing UID FETCH response` error. -/
def rfc822FieldStep (input : List Char) : Except String (List Char × List Char) :=
  if startsWithL input ("RFC822 ".data ++ [lbrace]) then
    match literalParse (input.drop 7) with
    | .ok (rest, body) => .ok (rest, body)
    | .error _ => .error "Unexpected input while parsing UID FETCH response"
  else .error "not an RFC822 octet-literal field"

/-- `takeWhile isDigit` consumes an all-digit block up to a closing brace. -/
theorem takeWhile_digits_append (ds X : List Char) (h : ∀ c ∈ ds, c.isDigit) :
    (ds ++ rbrace :: X).takeWhile Char.isDigit = ds := by
  induction ds with
  | nil =>
    simp only [List.nil_append, List.takeWhile_cons]
    simp [show Char.isDigit rbrace = false by decide]
  | cons c cs ih =>
    simp only [List.cons_append, List.takeWhile_cons, h c (by simp)]
    simp only [if_true]
    rw [ih (fun x hx => h x (by simp [hx]))]

/-- C6: the octet-counted literal combinator consumes exactly the announced
number of bytes, regardless of their content (embedded `)` , `}` or CRLF
included); an input with fewer than the announced number of bytes after the
`{n}` CRLF header is a parse error, never a truncated body; and the concrete
spec example `RFC822 {11}` CRLF `Hello` CRLF `Bye}` yields exactly those
11 bytes in `uid_fetch_response`'s RFC822 branch. -/
theorem c6_literal_octet_exact :
    (∀ ds body rest : List Char, ds ≠ [] → (∀ c ∈ ds, c.isDigit) →
      body.length = digitsToNat ds →
      literalParse (lbrace :: ds ++ rbrace :: '\r' :: '\n' :: (body ++ rest))
        = .ok (rest, body))
    ∧ (∀ ds avail : List Char, ds ≠ [] → (∀ c ∈ ds, c.isDigit) →
      avail.length < digitsToNat ds →
      ∃ e, literalParse (lbrace :: ds ++ rbrace :: '\r' :: '\n' :: avail)
        = .error e)
    ∧ rfc822FieldStep ("RFC822 ".data ++ lbrace :: '1' :: '1' :: rbrace ::
        '\r' :: '\n' :: ("Hello".data ++ '\r' :: '\n' :: "Bye".data ++ [rbrace]))
      = .ok ([], "Hello".data ++ '\r' :: '\n' :: "Bye".data ++ [rbrace]) := by
  refine ⟨?_, ?_, ?_⟩
  · intro ds body rest hne hdig hlen
    have htw := takeWhile_digits_append ds ('\r' :: '\n' :: (body ++ rest)) hdig
    rw [List.cons_append, literalParse.eq_2]
    simp only [if_pos rfl, htw, List.isEmpty_iff, if_neg hne, List.drop_left]
    simp only [startsWithL, beq_self_eq_true, Bool.true_and, if_true,
      List.drop_succ_cons, List.drop_zero]
    rw [← hlen, if_neg (by simp only [List.length_append]; omega),
      List.drop_left, List.take_left]
  · intro ds avail hne hdig hlen
    have htw := takeWhile_digits_append ds ('\r' :: '\n' :: avail) hdig
    rw [List.cons_append, literalParse.eq_2]
    simp only [if_pos rfl, htw, List.isEmpty_iff, if_neg hne, List.drop_left]
    simp only [startsWithL, beq_self_eq_true, Bool.true_and, if_true,
      List.drop_succ_cons, List.drop_zero]
    rw [if_pos hlen]
    exact ⟨_, rfl⟩
  · rfl


/-! ## C7: `select_response` (protocol_parser.rs lines 953-988), with the
`flags` helper (lines 990-1031) and `SelectResponse` (lines 917-929). -/

/-- The CRLF separator. -/
def crlf : List Char := ['\r', '\n']

/-- The `Flag` bitset constructors touched by `flags` (bitflags type; the
melib `Flag` definition lives in `email.rs`, outside `src/`, but the five
named bits set here are exactly the ones `flags` assigns). -/
structure FlagM where
  replied : Bool := false
  flagged : Bool := false
  trashed : Bool := false
  seen : Bool := false
  draft : Bool := false
deriving DecidableEq

instance : Inhabited FlagM := ⟨{}⟩

/-- `SelectResponse` (protocol_parser.rs 917-929); `#[derive(Default)]`
zero/false/empty-initialises every field. -/
structure SelectResponseM where
  exists_ : Nat := 0
  recent : Nat := 0
  flags : FlagM × List (List Char) := (default, [])
  unseen : Nat := 0
  uidvalidity : Nat := 0
  uidnext : Nat := 0
  permanentflags : FlagM × List (List Char) := (default, [])
  can_create_flags : Bool := false
  read_only : Bool := false
deriving DecidableEq

instance : Inhabited SelectResponseM := ⟨{}⟩

/-- The `match_end` scan inside `flags`: index of the first space or `)`. -/
def matchEnd : List Char → Nat
  | [] => 0
  | c :: rest => if c = ' ' ∨ c = ')' then 0 else 1 + matchEnd rest

/-- One token dispatch inside the `flags` loop: the five named system flags
set a bit, anything else is pushed as a keyword. -/
def applyFlagToken (f : FlagM) (kw : List (List Char)) (tok : List Char) :
    FlagM × List (List Char) :=
  if tok = ("Answered".data) then ({ f with replied := true }, kw)
  else if tok = ("Flagged".data) then ({ f with flagged := true }, kw)
  else if tok = ("Deleted".data) then ({ f with trashed := true }, kw)
  else if tok = ("Seen".data) then ({ f with seen := true }, kw)
  else if tok = ("Draft".data) then ({ f with draft := true }, kw)
  else (f, kw ++ [tok])

/-- The `flags` loop (protocol_parser.rs 990-1031), fuelled: every iteration
strictly shortens the input (a leading `\` is stripped, then either a
non-empty token is consumed or leading whitespace is trimmed), so fuel
`input.length + 1` always suffices and the fuel-exhausted arm is
unreachable. -/
def flagsAux : Nat → FlagM → List (List Char) → List Char →
    List Char × (FlagM × List (List Char))
  | 0, f, kw, input => (input, (f, kw))
  | fuel+1, f, kw, input =>
    if ¬ startsWithL input [')'] ∧ input ≠ [] then
      let input1 := if startsWithL input ['\\'] then input.drop 1 else input
      let m := matchEnd input1
      let fk := applyFlagToken f kw (input1.take m)
      flagsAux fuel fk.1 fk.2 (trimStartL (input1.drop m))
    else (input, (f, kw))

/-- `flags` (protocol_parser.rs 990-1031): always returns `Ok` in the source;
the result is `(rest, (flag-bits, keywords))`. -/
def flagsL (input : List Char) : List Char × (FlagM × List (List Char)) :=
  flagsAux (input.length + 1) default [] input

/-- Rust `str::find(char)` as a character index. -/
def findIdxOf (c : Char) (l : List Char) : Option Nat := l.findIdx? (· = c)

/-- Rust slice `l[a..b]` on character lists. -/
def sliceL (l : List Char) (a b : Nat) : List Char := (l.drop a).take (b - a)

/-- One line of the `select_response` scan (the body of the `for` loop,
protocol_parser.rs 957-981).  `usize::from_str` failures propagate as errors
(the `?` operator); a `find(..).unwrap()` on a line missing the closing
bracket panics in Rust and is embedded as an error. -/
def processLine (ret : SelectResponseM) (l : List Char) :
    Except (List Char) SelectResponseM :=
  if startsWithL l ("* ".data) && endsWithL l (" EXISTS".data) then
    match parseUsize (sliceL l 2 (l.length - 7)) with
    | .ok n => .ok { ret with exists_ := n }
    | .error e => .error e.data
  else if startsWithL l ("* ".data) && endsWithL l (" RECENT".data) then
    match parseUsize (sliceL l 2 (l.length - 7)) with
    | .ok n => .ok { ret with recent := n }
    | .error e => .error e.data
  else if startsWithL l ("* FLAGS (".data) then
    .ok { ret with flags := (flagsL (sliceL l 9 (l.length - 1))).2 }
  else if startsWithL l ("* OK [UNSEEN ".data) then
    match findIdxOf ']' l with
    | none => .error ("panic: unwrap on None".data)
    | some idx =>
      match parseUsize (sliceL l 13 idx) with
      | .ok n => .ok { ret with unseen := n }
      | .error e => .error e.data
  else if startsWithL l ("* OK [UIDVALIDITY ".data) then
    match findIdxOf ']' l with
    | none => .error ("panic: unwrap on None".data)
    | some idx =>
      match parseUsize (sliceL l 18 idx) with
      | .ok n => .ok { ret with uidvalidity := n }
      | .error e => .error e.data
  else if startsWithL l ("* OK [UIDNEXT ".data) then
    match findIdxOf ']' l with
    | none => .error ("panic: unwrap on None".data)
    | some idx =>
      match parseUsize (sliceL l 14 idx) with
      | .ok n => .ok { ret with uidnext := n }
      | .error e => .error e.data
  else if startsWithL l ("* OK [PERMANENTFLAGS (".data) then
    match findIdxOf ')' l with
    | none => .error ("panic: unwrap on None".data)
    | some idx =>
      .ok { ret with
        permanentflags := (flagsL (sliceL l 22 idx)).2,
        can_create_flags := containsL l ("\\*".data) }
  else if containsL l ("OK [READ-WRITE]".data) then
    .ok { ret with read_only := false }
  else if containsL l ("OK [READ-ONLY]".data) then
    .ok { ret with read_only := true }
  else
    .ok ret

/-- A line matching one of the nine recognized patterns of the
`select_response` scan; every other line only gets `debug!`-logged. -/
def recognizedLineB (l : List Char) : Bool :=
  (startsWithL l ("* ".data) && endsWithL l (" EXISTS".data))
  || (startsWithL l ("* ".data) && endsWithL l (" RECENT".data))
  || startsWithL l ("* FLAGS (".data)
  || startsWithL l ("* OK [UNSEEN ".data)
  || startsWithL l ("* OK [UIDVALIDITY ".data)
  || startsWithL l ("* OK [UIDNEXT ".data)
  || startsWithL l ("* OK [PERMANENTFLAGS (".data)
  || containsL l ("OK [READ-WRITE]".data)
  || containsL l ("OK [READ-ONLY]".data)

/-- `select_response` (protocol_parser.rs 953-988): `input.contains("* OK")`
gates everything; without it the raw input is wrapped in a `MeliError`.
Otherwise the CRLF-split lines are scanned in order into a default-initialised
`SelectResponse`. -/
def selectResponseL (input : List Char) : Except (List Char) SelectResponseM :=
  if containsL input ("* OK".data) then
    (splitRN input).foldlM processLine default
  else
    .error input

/-- Decidable equality for `Except` results (used to evaluate the embeddings
at concrete inputs). -/
instance {ε α : Type _} [DecidableEq ε] [DecidableEq α] : DecidableEq (Except ε α) :=
  fun a b =>
    match a, b with
    | .ok x, .ok y =>
      if h : x = y then .isTrue (by rw [h]) else .isFalse (by simp [h])
    | .error x, .error y =>
      if h : x = y then .isTrue (by rw [h]) else .isFalse (by simp [h])
    | .ok _, .error _ => .isFalse (by simp)
    | .error _, .ok _ => .isFalse (by simp)

/-- A prefix of `x` is a prefix of `x ++ b`. -/
theorem startsWithL_append_left (x b pat : List Char)
    (h : startsWithL x pat = true) : startsWithL (x ++ b) pat = true := by
  induction pat generalizing x with
  | nil => simp [startsWithL]
  | cons p ps ih =>
    cases x with
    | nil => simp [startsWithL] at h
    | cons c cs =>
      simp only [startsWithL, Bool.and_eq_true] at h ⊢
      exact ⟨h.1, ih cs h.2⟩

/-- Every string contains the empty pattern. -/
theorem containsL_nil_pat (x : List Char) : containsL x [] = true := by
  cases x <;> simp [containsL, startsWithL, List.isEmpty]

/-- Substring containment is preserved by appending on the right. -/
theorem containsL_append_left (a b pat : List Char)
    (h : containsL a pat = true) : containsL (a ++ b) pat = true := by
  induction a with
  | nil =>
    simp only [containsL, List.isEmpty_iff] at h
    subst h
    exact containsL_nil_pat b
  | cons c cs ih =>
    simp only [containsL, Bool.or_eq_true] at h ⊢
    rcases h with h | h
    · exact Or.inl (startsWithL_append_left _ _ _ h)
    · cases cs with
      | nil =>
        simp only [containsL, List.isEmpty_iff] at h
        subst h
        cases b with
        | nil => exact Or.inl (by simp [startsWithL])
        | cons d ds => exact Or.inr (by simpa using containsL_nil_pat (d :: ds))
      | cons d ds => exact Or.inr (ih h)

/-- `consFirst` distributes over appending further pieces. -/
theorem consFirst_append (c : Char) (X Y : List (List Char)) (h : X ≠ []) :
    consFirst c (X ++ Y) = consFirst c X ++ Y := by
  cases X with
  | nil => exact absurd rfl h
  | cons x xs => simp [consFirst]

/-- Splitting on CRLF distributes over an explicit CRLF separator. -/
theorem splitRN_append (a b : List Char) :
    splitRN (a ++ '\r' :: '\n' :: b) = splitRN a ++ splitRN b := by
  generalize hn : a.length = n
  induction n using Nat.strong_induction_on generalizing a with
  | _ n ih =>
    match a with
    | [] =>
      show splitRN ('\r' :: '\n' :: b) = _
      rw [splitRN.eq_3, if_pos ⟨rfl, rfl⟩]
      rfl
    | [c] =>
      show splitRN (c :: '\r' :: '\n' :: b) = _
      rw [splitRN.eq_3, if_neg (by simp)]
      rw [splitRN.eq_3, if_pos ⟨rfl, rfl⟩]
      simp [splitRN, consFirst]
    | c :: d :: rest =>
      show splitRN (c :: d :: (rest ++ '\r' :: '\n' :: b)) = _
      rw [splitRN.eq_3, splitRN.eq_3]
      by_cases hc : c = '\r' ∧ d = '\n'
      · rw [if_pos hc, if_pos hc]
        rw [ih rest.length (by subst hn; simp; omega) rest rfl]
        rfl
      · rw [if_neg hc, if_neg hc]
        rw [show d :: (rest ++ '\r' :: '\n' :: b)
            = (d :: rest) ++ '\r' :: '\n' :: b from rfl]
        rw [ih (d :: rest).length (by subst hn; simp) (d :: rest) rfl]
        rw [consFirst_append _ _ _ (splitRN_ne_nil _)]

/-- A piece with no CRLF splits into itself alone. -/
theorem splitRN_no_sep : ∀ l : List Char, containsL l crlf = false → splitRN l = [l]
  | [], _ => by simp [splitRN]
  | [c], _ => by simp [splitRN]
  | c :: d :: rest, h => by
    have h' : containsL (d :: rest) crlf = false := by
      simp only [containsL, Bool.or_eq_false_iff] at h ⊢
      exact h.2
    have hsw : startsWithL (c :: d :: rest) crlf = false := by
      simp only [containsL, Bool.or_eq_false_iff] at h
      exact h.1
    rw [splitRN.eq_3]
    rw [if_neg (by
      rintro ⟨hc, hd⟩
      simp [crlf, startsWithL, hc, hd] at hsw)]
    rw [splitRN_no_sep (d :: rest) h']
    rfl

/-- An unrecognized line falls through every branch of the scan and leaves the
accumulated `SelectResponse` untouched (it is only `debug!`-logged). -/
theorem processLine_unrecognized (ret : SelectResponseM) (l : List Char)
    (h : recognizedLineB l = false) : processLine ret l = .ok ret := by
  have h1 : (startsWithL l ("* ".data) && endsWithL l (" EXISTS".data)) = false := by
    by_contra hc
    simp only [Bool.not_eq_false] at hc
    simp [recognizedLineB, hc] at h
  have h2 : (startsWithL l ("* ".data) && endsWithL l (" RECENT".data)) = false := by
    by_contra hc
    simp only [Bool.not_eq_false] at hc
    simp [recognizedLineB, hc] at h
  have h3 : startsWithL l ("* FLAGS (".data) = false := by
    by_contra hc
    simp only [Bool.not_eq_false] at hc
    simp [recognizedLineB, hc] at h
  have h4 : startsWithL l ("* OK [UNSEEN ".data) = false := by
    by_contra hc
    simp only [Bool.not_eq_false] at hc
    simp [recognizedLineB, hc] at h
  have h5 : startsWithL l ("* OK [UIDVALIDITY ".data) = false := by
    by_contra hc
    simp only [Bool.not_eq_false] at hc
    simp [recognizedLineB, hc] at h
  have h6 : startsWithL l ("* OK [UIDNEXT ".data) = false := by
    by_contra hc
    simp only [Bool.not_eq_false] at hc
    simp [recognizedLineB, hc] at h
  have h7 : startsWithL l ("* OK [PERMANENTFLAGS (".data) = false := by
    by_contra hc
    simp only [Bool.not_eq_false] at hc
    simp [recognizedLineB, hc] at h
  have h8 : containsL l ("OK [READ-WRITE]".data) = false := by
    by_contra hc
    simp only [Bool.not_eq_false] at hc
    simp [recognizedLineB, hc] at h
  have h9 : containsL l ("OK [READ-ONLY]".data) = false := by
    by_contra hc
    simp only [Bool.not_eq_false] at hc
    simp [recognizedLineB, hc] at h
  simp [processLine, h1, h2, h3, h4, h5, h6, h7, h8, h9]

/-- C7 (amended): `select_response` fails with a `MeliError` wrapping the raw
input exactly when the input lacks the substring `* OK` anywhere (the source
gates on `input.contains("* OK")`, not on a line-level preamble); when the
gate passes, unrecognized CRLF-separated lines are logged but change nothing:
appending one leaves the result untouched. -/
theorem c7_select_response_amended :
    (∀ input : List Char, containsL input ("* OK".data) = false →
      selectResponseL input = .error input)
    ∧ (∀ input l : List Char, containsL l crlf = false →
      recognizedLineB l = false → containsL input ("* OK".data) = true →
      selectResponseL (input ++ '\r' :: '\n' :: l) = selectResponseL input) := by
  constructor
  · intro input h
    simp [selectResponseL, h]
  · intro input l hno hrec hok
    have hok2 : containsL (input ++ '\r' :: '\n' :: l) ("* OK".data) = true :=
      containsL_append_left _ _ _ hok
    simp only [selectResponseL, hok, hok2, if_true]
    rw [splitRN_append, splitRN_no_sep l hno]
    rw [List.foldlM_append]
    cases hfold : List.foldlM processLine default (splitRN input) with
    | error e => rfl
    | ok st =>
      have hpl : ∀ s, processLine s l = .ok s := fun s =>
        processLine_unrecognized s l hrec
      simp [List.foldlM_cons, List.foldlM_nil, hpl]
      rfl

/-- Witness: both parts of the amended C7 theorem at concrete inputs. -/
theorem c7_select_response_amended_witness :
    selectResponseL ("M1 NO access denied".data)
      = .error ("M1 NO access denied".data)
    ∧ selectResponseL ("* OK ready".data ++ '\r' :: '\n' :: "junk line".data)
      = selectResponseL ("* OK ready".data) :=
  ⟨c7_select_response_amended.1 _ (by decide),
   c7_select_response_amended.2 _ _ (by decide) (by decide) (by decide)⟩

/-- Counterexample to C7 as stated: the input `x* OK` has no CRLF-line that
starts with `* OK` (no top-level `* OK` line), yet `select_response` does not
fail — the substring gate `input.contains("* OK")` accepts it and a default
`SelectResponse` is returned. -/
theorem c7_select_response_counterexample :
    (∀ l ∈ splitRN ("x* OK".data), startsWithL l ("* OK".data) = false)
    ∧ selectResponseL ("x* OK".data) ≠ .error ("x* OK".data)
    ∧ selectResponseL ("x* OK".data) = .ok default := by
  refine ⟨by decide, by decide, by decide⟩

/-! ## C1 / C9: the batched `UID FETCH` loop of `ImapType::get`
(imap.rs lines 155-289). -/

/-- Modelled from the spec: the async result channel messages (`AsyncStatus`
from `async_workers.rs`, which is not under `src/`): partial results are
streamed as `Payload(Result<Vec<Envelope>>)` and a terminal `Finished`
marker ends the stream.  A batch's envelope payload is represented by its
parsed UID list. -/
inductive AsyncStatusM where
  | payload (res : Except String (List Nat))
  | finished
deriving DecidableEq

/-- The IMAP commands `get` sends over its connection. -/
inductive ImapCommandM where
  | select (path : String)
  | examine (path : String)
  | uidFetch (lo hi : Nat)
deriving DecidableEq

/-- The `while exists > 1` loop of `get` (imap.rs 222-278), fuelled: each
iteration sends `UID FETCH max(exists-500,1):exists`, parses the response
(abstracted as `oracle`, returning the batch's parsed UIDs or a parse error),
pushes one `Payload`, and continues with `exists := max(exists-500,1)`, which
strictly decreases while `exists > 1`; fuel equal to the initial `exists`
therefore always suffices and the fuel-exhausted arm is unreachable.  A parse
failure aborts the closure via `?`, so the failing batch yields one `Err`
payload and no further commands. -/
def imapFetchLoopF (oracle : Nat → Nat → Except String (List Nat)) :
    Nat → Nat → List ImapCommandM × List AsyncStatusM
  | 0, _ => ([], [])
  | fuel+1, ex =>
    if ex > 1 then
      match oracle (max (ex - 500) 1) ex with
      | .error e => ([.uidFetch (max (ex - 500) 1) ex], [.payload (.error e)])
      | .ok uids =>
        let rest := imapFetchLoopF oracle fuel (max (ex - 500) 1)
        (.uidFetch (max (ex - 500) 1) ex :: rest.1, .payload (.ok uids) :: rest.2)
    else ([], [])

/-- The fetch loop entered with `exists = ex` (fuel `ex` is always enough). -/
def imapFetchLoop (oracle : Nat → Nat → Except String (List Nat)) (ex : Nat) :
    List ImapCommandM × List AsyncStatusM :=
  imapFetchLoopF oracle ex ex

/-- One unfolding of the fuelled fetch loop. -/
theorem imapFetchLoopF_succ (oracle : Nat → Nat → Except String (List Nat))
    (fuel ex : Nat) :
    imapFetchLoopF oracle (fuel + 1) ex =
      if ex > 1 then
        match oracle (max (ex - 500) 1) ex with
        | .error e => ([.uidFetch (max (ex - 500) 1) ex], [.payload (.error e)])
        | .ok uids =>
          (.uidFetch (max (ex - 500) 1) ex
              :: (imapFetchLoopF oracle fuel (max (ex - 500) 1)).1,
            .payload (.ok uids)
              :: (imapFetchLoopF oracle fuel (max (ex - 500) 1)).2)
      else ([], []) := rfl

/-- The worker closure of `ImapType::get` (imap.rs 174-285) on a selectable
run: for `no_select` mailboxes it immediately sends an empty payload and
`Finished`; otherwise it sends `SELECT`, parses the response with
`select_response` (an `Err` becomes an `Err` payload before `Finished`),
initialises `exists = uidnext - 1`, sends `EXAMINE`, runs the batched fetch
loop, and always terminates the channel with `Finished`.  State writes
(uidvalidity map, permissions, unseen counters, uid/hash indices) are not
modelled; the claims concern the command and channel traffic. -/
def imapGetRun (noSelect : Bool) (folderPath : String) (selectRaw : List Char)
    (oracle : Nat → Nat → Except String (List Nat)) :
    List ImapCommandM × List AsyncStatusM :=
  if noSelect then ([], [.payload (.ok []), .finished])
  else
    match selectResponseL selectRaw with
    | .error e =>
      ([.select folderPath], [.payload (.error (String.mk e)), .finished])
    | .ok sr =>
      let ex := sr.uidnext - 1
      let r := imapFetchLoop oracle ex
      (.select folderPath :: .examine folderPath :: r.1, r.2 ++ [.finished])

/-- The UID ranges of the `UID FETCH` commands in a command list. -/
def fetchRangesOf (cmds : List ImapCommandM) : List (Nat × Nat) :=
  cmds.filterMap fun c =>
    match c with
    | .uidFetch lo hi => some (lo, hi)
    | _ => none

/-- Counterexample to C1 as stated: with `UIDNEXT = 1001` the two issued
ranges are `[500,1000]` then `[1,500]` — the second range ends at 500, not
499, so the batches overlap at UID 500 instead of being overlap-free with
`[1,499]`. -/
theorem c1_batched_fetch_counterexample :
    fetchRangesOf
        (imapGetRun false "INBOX" ("* OK [UIDNEXT 1001] Predicted next UID".data)
          (fun _ _ => .ok [])).1
      = [(500, 1000), (1, 500)]
    ∧ [((500 : Nat), (1000 : Nat)), (1, 500)] ≠ [(500, 1000), (1, 499)] := by
  constructor
  · decide
  · decide

/-- C1 (amended): on a selectable mailbox whose SELECT response reports
`UIDNEXT = 1001` (1000 existing messages), with the fixed batch size of 500,
the worker issues exactly 2 `UID FETCH` commands with ranges `[500,1000]`
then `[1,500]` — descending and together covering `1..=1000`, overlapping at
UID 500 — and the channel receives exactly 2 `Payload` messages followed by
1 `Finished` marker. -/
theorem c1_batched_fetch_amended :
    ∀ (path : String) (raw : List Char) (sr : SelectResponseM)
      (oracle : Nat → Nat → Except String (List Nat)) (xs ys : List Nat),
      selectResponseL raw = .ok sr → sr.uidnext = 1001 →
      oracle 500 1000 = .ok xs → oracle 1 500 = .ok ys →
      imapGetRun false path raw oracle
        = ([.select path, .examine path, .uidFetch 500 1000, .uidFetch 1 500],
           [.payload (.ok xs), .payload (.ok ys), .finished])
      ∧ fetchRangesOf (imapGetRun false path raw oracle).1
        = [(500, 1000), (1, 500)] := by
  intro path raw sr oracle xs ys hsel hnext hx hy
  have hloop2 : imapFetchLoopF oracle 998 1 = ([], []) := by
    have h := imapFetchLoopF_succ oracle 997 1
    norm_num at h
    exact h
  have hloop1 : imapFetchLoopF oracle 999 500
      = ([.uidFetch 1 500], [.payload (.ok ys)]) := by
    have h := imapFetchLoopF_succ oracle 998 500
    norm_num [hy, hloop2] at h
    exact h
  have hloop0 : imapFetchLoopF oracle 1000 1000
      = ([.uidFetch 500 1000, .uidFetch 1 500],
         [.payload (.ok xs), .payload (.ok ys)]) := by
    have h := imapFetchLoopF_succ oracle 999 1000
    norm_num [hx, hloop1] at h
    exact h
  have hrun : imapGetRun false path raw oracle
      = ([.select path, .examine path, .uidFetch 500 1000, .uidFetch 1 500],
         [.payload (.ok xs), .payload (.ok ys), .finished]) := by
    simp only [imapGetRun, Bool.false_eq_true, if_false, hsel, imapFetchLoop,
      hnext]
    norm_num [hloop0]
  exact ⟨hrun, by rw [hrun]; rfl⟩

/-- Witness: the amended C1 theorem applied at a concrete SELECT response and
fetch oracle. -/
theorem c1_batched_fetch_amended_witness :
    imapGetRun false "INBOX" ("* OK [UIDNEXT 1001] Predicted next UID".data)
        (fun lo _ => .ok [lo])
      = ([.select "INBOX", .examine "INBOX",
          .uidFetch 500 1000, .uidFetch 1 500],
         [.payload (.ok [500]), .payload (.ok [1]), .finished]) :=
  (c1_batched_fetch_amended "INBOX" _ { uidnext := 1001 } _ [500] [1]
    (by decide) rfl rfl rfl).1

/-- C9: on a selectable mailbox whose SELECT response reports `UIDNEXT = 2`
(exactly one existing message), the fetch loop body never runs — the counter
starts at `uidnext - 1 = 1` and the loop iterates only while it is strictly
greater than 1 — so no `UID FETCH` command is issued and the channel receives
only the `Finished` marker, with no envelope payload. -/
theorem c9_uidnext_two_skips_fetch :
    ∀ (path : String) (raw : List Char) (sr : SelectResponseM)
      (oracle : Nat → Nat → Except String (List Nat)),
      selectResponseL raw = .ok sr → sr.uidnext = 2 →
      fetchRangesOf (imapGetRun false path raw oracle).1 = []
      ∧ (imapGetRun false path raw oracle).2 = [.finished] := by
  intro path raw sr oracle hsel hnext
  have hloop : imapFetchLoopF oracle 1 1 = ([], []) := rfl
  have hrun : imapGetRun false path raw oracle
      = ([.select path, .examine path], [.finished]) := by
    simp only [imapGetRun, Bool.false_eq_true, if_false, hsel, imapFetchLoop,
      hnext]
    norm_num [hloop]
  rw [hrun]
  exact ⟨rfl, rfl⟩

/-- Witness: C9 at a concrete SELECT response reporting `UIDNEXT = 2`. -/
theorem c9_uidnext_two_skips_fetch_witness :
    fetchRangesOf
        (imapGetRun false "INBOX" ("* OK [UIDNEXT 2] Predicted next UID".data)
          (fun _ _ => .ok [])).1 = []
    ∧ (imapGetRun false "INBOX" ("* OK [UIDNEXT 2] Predicted next UID".data)
        (fun _ _ => .ok [])).2 = [.finished] :=
  c9_uidnext_two_skips_fetch "INBOX" _ { uidnext := 2 } _ (by decide) rfl

/-! ## C5: `ImapType::delete_folder` (imap.rs lines 499-548), with
`ImapResponse::from` (protocol_parser.rs 236-259) and `ResponseCode::from`
(protocol_parser.rs 190-224) for the tagged-response interpretation. -/

/-- Rust `str::find` of a single character, as an index. -/
def rfindIdxOf (c : Char) (l : List Char) : Option Nat :=
  match l.reverse.findIdx? (· = c) with
  | none => none
  | some j => some (l.length - 1 - j)

/-- Rust `str::find` of a multi-character pattern, as an index. -/
def findSubIdxAux (pat : List Char) : List Char → Nat → Option Nat
  | [], i => if startsWithL [] pat then some i else none
  | c :: rest, i =>
    if startsWithL (c :: rest) pat then some i
    else findSubIdxAux pat rest (i + 1)

/-- `ResponseCode::from` (protocol_parser.rs 190-224): free text (no leading
`[`) is an `Alert`; otherwise the bracketed keyword is classified, with the
UIDNEXT/UIDVALIDITY/UNSEEN payloads left at 0 (a `FIXME` in the source), and
an unknown bracketed code becomes an `Alert` of the text after `] ` — whose
`find("] ").unwrap()` panics (embedded as an error) when absent. -/
def responseCodeFromL (val : List Char) : Except String ResponseCodeM :=
  if ¬ startsWithL val ("[".data) then .ok (.alert (String.mk (trimL val)))
  else
    let val := val.drop 1
    if startsWithL val ("BADCHARSET".data) then
      .ok (.badcharset ((findIdxOf '(' val).map
        (fun pos => String.mk (trimL (val.drop (pos + 1))))))
    else if startsWithL val ("READONLY".data) then .ok .readOnly
    else if startsWithL val ("READWRITE".data) then .ok .readWrite
    else if startsWithL val ("TRYCREATE".data) then .ok .trycreate
    else if startsWithL val ("UIDNEXT".data) then .ok (.uidnext 0)
    else if startsWithL val ("UIDVALIDITY".data) then .ok (.uidvalidity 0)
    else if startsWithL val ("UNSEEN".data) then .ok (.unseen 0)
    else
      match findSubIdxAux ("] ".data) val 0 with
      | none => .error "panic: unwrap on None"
      | some idx => .ok (.alert (String.mk (trimL (val.drop (idx + 1)))))

/-- `ImapResponse::from` (protocol_parser.rs 236-259): take the last CRLF
line, cut everything up to and including the first space (the tag; a missing
space panics, embedded as an error), trim, strip a trailing timing note
`(.. secs).`, then classify by the OK/NO/BAD/PREAUTH/BYE prefix; an unknown
prefix panics (embedded as an error). -/
def imapResponseFromL (val : List Char) : Except String ImapResponseM :=
  let v0 := lastLineRN val
  match findIdxOf ' ' v0 with
  | none => .error "panic: unwrap on None"
  | some sp =>
    let v1 := trimL (v0.drop (sp + 1))
    let v2e : Except String (List Char) :=
      if endsWithL v1 (" secs).".data) then
        match rfindIdxOf '(' v1 with
        | none => .error "panic: unwrap on None"
        | some p => .ok (v1.take p)
      else .ok v1
    match v2e with
    | .error e => .error e
    | .ok v2 =>
      if startsWithL v2 ("OK".data) then
        (responseCodeFromL (v2.drop 3)).map ImapResponseM.ok
      else if startsWithL v2 ("NO".data) then
        (responseCodeFromL (v2.drop 3)).map ImapResponseM.no
      else if startsWithL v2 ("BAD".data) then
        (responseCodeFromL (v2.drop 4)).map ImapResponseM.bad
      else if startsWithL v2 ("PREAUTH".data) then
        (responseCodeFromL (v2.drop 8)).map ImapResponseM.preauth
      else if startsWithL v2 ("BYE".data) then
        (responseCodeFromL (v2.drop 4)).map ImapResponseM.bye
      else .error "panic: Unknown IMAP response"

/-- Modelled from the spec: the mailbox permission set (`FolderPermissions`
lives in `backends/mod.rs`, not under `src/`); the spec's Mailbox data model
lists a permission set (can create/delete/rename/set-flags), and these are
the fields `imap.rs` reads and writes. -/
structure FolderPermissionsM where
  create_messages : Bool := false
  remove_messages : Bool := false
  set_flags : Bool := false
  rename_messages : Bool := false
  delete_messages : Bool := false
  delete_mailbox : Bool := false
  change_permissions : Bool := false
deriving DecidableEq

/-- Modelled from the spec: the cached `ImapFolder` record (`folder.rs` is
not under `src/`); per the spec's Mailbox data model it carries name, IMAP
path, subscription flag, no-select flag and the permission set — the fields
`delete_folder` reads. -/
structure ImapFolderM where
  name : String := ""
  imap_path : String := ""
  is_subscribed : Bool := false
  no_select : Bool := false
  permissions : FolderPermissionsM := {}
deriving DecidableEq

/-- The commands `delete_folder` can send over its connection. -/
inductive DeleteCommandM where
  | unsubscribe (path : String)
  | unselect (path : String)
  | select (path : String)
  | examine (path : String)
  | delete (path : String)
deriving DecidableEq

/-- Association-list lookup, modelling the `FnvHashMap` index. -/
def lookupAssoc {α : Type _} : List (Nat × α) → Nat → Option α
  | [], _ => none
  | (k, v) :: rest, key => if k = key then some v else lookupAssoc rest key

/-- Rust `eq_ignore_ascii_case` on character lists. -/
def asciiEqIgnoreCase : List Char → List Char → Bool
  | [], [] => true
  | c :: cs, d :: ds => (c.toLower == d.toLower) && asciiEqIgnoreCase cs ds
  | _, _ => false

/-- `ImapType::delete_folder` (imap.rs 499-548): look up the cached folder
(an absent key panics on the map index, embedded as an error), check its
cached `delete_mailbox` permission and fail before any command when denied;
otherwise UNSUBSCRIBE if subscribed, deselect selectable mailboxes (UNSELECT
when the capability is advertised, else SELECT + EXAMINE), send DELETE,
interpret the last tagged response via `ImapResponse::from(..).into()`, and
only on success clear the cached map and re-list (`refetched`).  The result
is `(commands sent, (cached folder map afterwards, outcome))`; `respond`
models the connection's response to the final command read into `response`. -/
def deleteFolder (folders : List (Nat × ImapFolderM)) (capabilities : List (List Char))
    (folderHash : Nat) (respond : DeleteCommandM → List Char)
    (refetched : List (Nat × ImapFolderM)) :
    List DeleteCommandM × (List (Nat × ImapFolderM) × Except String Unit) :=
  match lookupAssoc folders folderHash with
  | none => ([], (folders, .error "panic: no entry found for key"))
  | some f =>
    if ¬ f.permissions.delete_mailbox then
      ([], (folders,
        .error ("You do not have permission to delete `" ++ f.name ++ "`")))
    else
      let cmds1 :=
        if f.is_subscribed then [DeleteCommandM.unsubscribe f.imap_path] else []
      let cmds2 :=
        if ¬ f.no_select then
          if capabilities.any
              (fun cap => asciiEqIgnoreCase cap ("UNSELECT".data)) then
            [DeleteCommandM.unselect f.imap_path]
          else
            [DeleteCommandM.select f.imap_path, DeleteCommandM.examine f.imap_path]
        else []
      let cmds := cmds1 ++ cmds2 ++ [DeleteCommandM.delete f.imap_path]
      match imapResponseFromL (respond (DeleteCommandM.delete f.imap_path)) with
      | .error e => (cmds, (folders, .error e))
      | .ok r =>
        match imapResponseIntoResult r with
        | .error e => (cmds, (folders, .error e.details))
        | .ok _ => (cmds, (refetched, .ok ()))

/-- C5: deleting a mailbox whose cached `permissions.delete_mailbox` is false
fails before any command (UNSUBSCRIBE, UNSELECT, SELECT, EXAMINE or DELETE)
is sent, and the cached mailbox map is left unchanged. -/
theorem c5_delete_folder_permission_gate :
    ∀ (folders : List (Nat × ImapFolderM)) (caps : List (List Char))
      (hash : Nat) (respond : DeleteCommandM → List Char)
      (refetched : List (Nat × ImapFolderM)) (f : ImapFolderM),
      lookupAssoc folders hash = some f →
      f.permissions.delete_mailbox = false →
      (deleteFolder folders caps hash respond refetched).1 = []
      ∧ (deleteFolder folders caps hash respond refetched).2.1 = folders
      ∧ ∃ e, (deleteFolder folders caps hash respond refetched).2.2 = .error e := by
  intro folders caps hash respond refetched f hl hp
  simp only [deleteFolder, hl]
  rw [if_pos (by simp [hp])]
  exact ⟨rfl, rfl, _, rfl⟩

/-- Witness: the C5 theorem at a concrete one-folder cache whose permission
set denies `delete_mailbox`. -/
theorem c5_delete_folder_permission_gate_witness :
    (deleteFolder [(7, { name := "Archive", imap_path := "Archive" })]
        [("IDLE".data)] 7 (fun _ => "M1 OK deleted".data) []).1 = []
    ∧ (deleteFolder [(7, { name := "Archive", imap_path := "Archive" })]
        [("IDLE".data)] 7 (fun _ => "M1 OK deleted".data) []).2.1
      = [(7, { name := "Archive", imap_path := "Archive" })]
    ∧ ∃ e, (deleteFolder [(7, { name := "Archive", imap_path := "Archive" })]
        [("IDLE".data)] 7 (fun _ => "M1 OK deleted".data) []).2.2 = .error e :=
  c5_delete_folder_permission_gate _ _ _ _ _
    { name := "Archive", imap_path := "Archive" } (by decide) (by decide)

/-- Witness: both literal-boundary parts of C6 at the spec's concrete
example (`{11}` CRLF followed by 11 bytes / by only 5 bytes). -/
theorem c6_literal_octet_exact_witness :
    literalParse (lbrace :: ('1' :: '1' :: []) ++ rbrace :: '\r' :: '\n' ::
        ("Hello".data ++ '\r' :: '\n' :: "Bye".data ++ [rbrace]))
      = .ok ([], "Hello".data ++ '\r' :: '\n' :: "Bye".data ++ [rbrace])
    ∧ ∃ e, literalParse (lbrace :: ('1' :: '1' :: []) ++ rbrace :: '\r' :: '\n' ::
        "Hello".data) = .error e := by
  constructor
  · have h := c6_literal_octet_exact.1 ['1', '1']
      ("Hello".data ++ '\r' :: '\n' :: "Bye".data ++ [rbrace]) []
      (by decide) (by decide) (by decide)
    simpa using h
  · exact c6_literal_octet_exact.2.1 ['1', '1'] ("Hello".data)
      (by decide) (by decide) (by decide)

/-! ## Threading engine (mailbox/thread.rs): data model and construction.
`Container` (lines 94-104), `Container::is_descendant` (439-455),
`PartialEq for Container` (464-471), `build_collection` (473-586) and
`build_threads` (589-731).  The arena is a `Vec<Container>` whose links are
indices; it is embedded as `List Container` with `getC` modelling indexing
(all indices used are in range; `getD` with a default keeps the embedding
total).  The envelope fields read by the engine (message-id, references,
in-reply-to, date, subject, seen) follow the spec's Envelope data model
(`email.rs` is not under `src/`). -/

/-- `Container` (thread.rs 94-104). -/
structure Container where
  id : Nat
  message : Option Nat
  parent : Option Nat
  first_child : Option Nat
  next_sibling : Option Nat
  date : Nat
  indentation : Nat
  show_subject : Bool
deriving DecidableEq

instance : Inhabited Container :=
  ⟨{ id := 0, message := none, parent := none, first_child := none,
     next_sibling := none, date := 0, indentation := 0, show_subject := true }⟩

/-- Arena indexing `threads[i]`. -/
def getC (t : List Container) (i : Nat) : Container := t.getD i default

/-- A fresh container for a newly seen message (thread.rs 498-507). -/
def freshContainer (id msg date : Nat) : Container :=
  { id := id, message := some msg, parent := none, first_child := none,
    next_sibling := none, date := date, indentation := 0, show_subject := true }

/-- A placeholder container for a referenced-but-absent message
(thread.rs 550-559): its `first_child` is the referencing container. -/
def placeholderContainer (id xIdx date : Nat) : Container :=
  { id := id, message := none, parent := none, first_child := some xIdx,
    next_sibling := none, date := date, indentation := 0, show_subject := true }

/-- A container for a Sent-folder reply (thread.rs 645-654): created with its
parent already set and no children. -/
def sentContainer (id msg p date : Nat) : Container :=
  { id := id, message := some msg, parent := some p, first_child := none,
    next_sibling := none, date := date, indentation := 0, show_subject := true }

/-- Modelled from the spec: the envelope fields the threading engine reads
(`Envelope` lives in `email.rs`, outside `src/`): message-id, the References
list, in-reply-to, parsed date, subject and the seen flag. -/
structure ThreadEnvelope where
  message_id : String
  references : List String := []
  in_reply_to : String := ""
  date : Nat := 0
  subject : String := ""
  seen : Bool := false
deriving DecidableEq

/-- `PartialEq for Container` (thread.rs 464-471): message equality when both
have messages, id equality otherwise. -/
def containerEq (a b : Container) : Bool :=
  match a.message, b.message with
  | some s, some o => s == o
  | _, _ => a.id == b.id

/-- `Container::is_descendant` (thread.rs 439-455), fuelled: equality via
`PartialEq`, then recursion into `first_child` and `next_sibling`.  The Rust
recursion has no fuel; on the acyclic arenas the construction maintains
(proved below) every reachable container sits on a repetition-free chain of
fewer than `t.length` hops, so the fuel `t.length + 1` used at every call
site makes the embedding agree with the source whenever the source
terminates. -/
def isDescendantF (t : List Container) : Nat → Container → Container → Bool
  | 0, _, _ => false
  | fuel+1, self, other =>
    containerEq self other
    || (match self.first_child with
        | some v => isDescendantF t fuel (getC t v) other
        | none => false)
    || (match self.next_sibling with
        | some v => isDescendantF t fuel (getC t v) other
        | none => false)

/-- The construction state: the container arena, the Message-ID table
(insertion-ordered association list embedding the `FnvHashMap`; keys are
inserted at most once), and the per-envelope thread index set by
`x.set_thread(..)`. -/
structure BuildState where
  threads : List Container
  id_table : List (String × Nat)
  thread_of : List (Option Nat)
deriving DecidableEq

/-- `id_table` lookup. -/
def lookupTable : List (String × Nat) → String → Option Nat
  | [], _ => none
  | (k, v) :: rest, key => if k = key then some v else lookupTable rest key

/-- The child-append walk of `build_collection` (thread.rs 538-544) and of
the sent-folder pass (669-675): follow `next_sibling` from the parent's first
child, re-setting `parent` along the way, and hang the new child at the end.
Fuelled: sibling chains in the maintained arenas are repetition-free, so fuel
`t.length + 1` always reaches the chain end. -/
def appendChild : Nat → List Container → Nat → Nat → Nat → List Container
  | 0, t, _, _, _ => t
  | fuel+1, t, iter, p, x =>
    match (getC t iter).next_sibling with
    | some nxt =>
      appendChild fuel (t.set iter { getC t iter with parent := some p }) nxt p x
    | none => t.set iter { getC t iter with next_sibling := some x, parent := some p }

/-- The `'date` loop (thread.rs 568-582 and 678-692): push the new message's
date up the parent chain wherever it exceeds the stored date.  Fuelled for
totality; only `date` fields change. -/
def updateDates : Nat → List Container → Nat → Nat → List Container
  | 0, t, _, _ => t
  | fuel+1, t, i, date =>
    let c := getC t i
    let t' := if c.date < date then t.set i { c with date := date } else t
    match c.parent with
    | some pp => updateDates fuel t' pp date
    | none => t'

/-- Processing of one References entry (thread.rs 529-583): a known parent is
linked only if `is_descendant` finds neither container reachable from the
other (both directions checked before the parent link is set); an unknown
reference creates a placeholder whose `first_child` is the current container,
which receives the placeholder as parent only if it has none. -/
def processReference (st : BuildState) (xIdx : Nat) (r : String) (date : Nat) :
    BuildState :=
  match lookupTable st.id_table r with
  | some p =>
    let t := st.threads
    let fuel := t.length + 1
    let st' :=
      if ¬ (isDescendantF t fuel (getC t p) (getC t xIdx)
            || isDescendantF t fuel (getC t xIdx) (getC t p)) then
        let t1 := t.set xIdx { getC t xIdx with parent := some p }
        let t2 :=
          match (getC t1 p).first_child with
          | none => t1.set p { getC t1 p with first_child := some xIdx }
          | some fc => appendChild (t1.length + 1) t1 fc p xIdx
        { st with threads := t2 }
      else st
    { st' with threads := updateDates (st'.threads.length + 1) st'.threads p date }
  | none =>
    let z := st.threads.length
    let t1 := st.threads ++ [placeholderContainer z xIdx date]
    let t2 :=
      if (getC t1 xIdx).parent = none
      then t1.set xIdx { getC t1 xIdx with parent := some z } else t1
    let st' : BuildState := ⟨t2, st.id_table ++ [(r, z)], st.thread_of⟩
    { st' with threads := updateDates (st'.threads.length + 1) st'.threads z date }

/-- The References walk of `build_collection` (thread.rs 521-584): the `iasf`
guard makes the reversed iteration process only its first entry, i.e. the
last (nearest) Reference; all others are skipped. -/
def linkLastRef (st : BuildState) (xIdx : Nat) (x : ThreadEnvelope) : BuildState :=
  match x.references.getLast? with
  | none => st
  | some r => processReference st xIdx r x.date

/-- One envelope of the collection pass (thread.rs 478-584): a Message-ID
already mapped to a container with a message is a duplicate and is skipped
outright; a mapped placeholder is filled in (date, thread index, message);
an unknown Message-ID gets a fresh container.  Then the nearest Reference is
linked. -/
def processStep (st : BuildState) (i : Nat) (x : ThreadEnvelope) : BuildState :=
  match lookupTable st.id_table x.message_id with
  | some tIdx =>
    if (getC st.threads tIdx).message.isSome then st
    else
      let t1 := st.threads.set tIdx { getC st.threads tIdx with date := x.date, message := some i }
      let st1 : BuildState := ⟨t1, st.id_table, st.thread_of.set i (some tIdx)⟩
      linkLastRef st1 tIdx x
  | none =>
    let xi := st.threads.length
    let st1 : BuildState := ⟨st.threads ++ [freshContainer xi i x.date],
      st.id_table ++ [(x.message_id, xi)], st.thread_of.set i (some xi)⟩
    linkLastRef st1 xi x

/-- `build_collection` (thread.rs 473-586) as a fold over the enumerated
collection. -/
def runCollection : BuildState → Nat → List ThreadEnvelope → BuildState
  | st, _, [] => st
  | st, i, x :: xs => runCollection (processStep st i x) (i + 1) xs

/-- The collection pass started from the empty arena and table. -/
def buildCollectionState (coll : List ThreadEnvelope) : BuildState :=
  runCollection ⟨[], [], List.replicate coll.length none⟩ 0 coll

/-- One Sent-folder envelope (thread.rs 620-697): splice a sent message into
the arena when its Message-ID is known (fill the placeholder) or when its
In-Reply-To is known (fresh container whose parent is set before the
`is_descendant` check; the check `continue`s past the child-link on a cycle).
Returns the new state and the next free envelope index (`idx` advances only
when the message is pushed onto the working collection). -/
def sentStep (st : BuildState) (idx : Nat) (x : ThreadEnvelope) :
    BuildState × Nat :=
  match lookupTable st.id_table x.message_id with
  | some c =>
    if (getC st.threads c).message.isSome then (st, idx)
    else
      let t1 := st.threads.set c { getC st.threads c with message := some idx, date := x.date }
      (⟨t1, st.id_table, st.thread_of⟩, idx + 1)
  | none =>
    if x.in_reply_to ≠ "" then
      match lookupTable st.id_table x.in_reply_to with
      | some p =>
        let c := st.threads.length
        let t1 := st.threads ++ [sentContainer c idx p x.date]
        let table1 := st.id_table ++ [(x.message_id, c)]
        let t2 := t1.set c { getC t1 c with parent := some p }
        let fuel := t2.length + 1
        if isDescendantF t2 fuel (getC t2 p) (getC t2 c)
            || isDescendantF t2 fuel (getC t2 c) (getC t2 p) then
          (⟨t2, table1, st.thread_of⟩, idx)
        else
          let t3 :=
            match (getC t2 p).first_child with
            | none => t2.set p { getC t2 p with first_child := some c }
            | some fc => appendChild (t2.length + 1) t2 fc p c
          let t4 := updateDates (t3.length + 1) t3 p x.date
          (⟨t4, table1, st.thread_of⟩, idx + 1)
      | none => (st, idx)
    else (st, idx)

/-- The Sent-folder pass (thread.rs 615-699) as a fold. -/
def runSent : BuildState → Nat → List ThreadEnvelope → BuildState
  | st, _, [] => st
  | st, idx, x :: xs =>
    let r := sentStep st idx x
    runSent r.1 r.2 xs

/-- `build_threads` up to the root-set derivation (thread.rs 589-699): the
collection pass, then the optional Sent-folder pass (an `Err`/absent sent
mailbox contributes nothing). -/
def buildThreadsState (coll : List ThreadEnvelope)
    (sent : Option (List ThreadEnvelope)) : BuildState :=
  let st := buildCollectionState coll
  match sent with
  | none => st
  | some sentColl => runSent st coll.length sentColl

/-- The root-set loop (thread.rs 702-717): every parentless container is a
root, except a messageless container with exactly one child (its first child
has no sibling), which is represented by that lone child instead.  The
`FnvHashMap` value-iteration order is unspecified in Rust; the table's
insertion order is used here, and the verified properties are membership
statements, independent of that order. -/
def rootSetUnsorted (st : BuildState) : List Nat :=
  st.id_table.foldr
    (fun kv acc =>
      let v := kv.2
      if (getC st.threads v).parent = none then
        (if (getC st.threads v).message = none then
          match (getC st.threads v).first_child with
          | some fc => if (getC st.threads fc).next_sibling = none then fc else v
          | none => v
        else v) :: acc
      else acc)
    []

/-- The sorted root set (thread.rs 718): stable sort by thread date,
descending. -/
def rootSetOf (st : BuildState) : List Nat :=
  (rootSetUnsorted st).mergeSort
    (fun a b => decide ((getC st.threads b).date ≤ (getC st.threads a).date))

/-- An arena edge: `v` is the `first_child` or `next_sibling` of `u`. -/
def pointsTo (c : Container) (v : Nat) : Prop :=
  c.first_child = some v ∨ c.next_sibling = some v

/-- The `first_child`/`next_sibling` link relation of an arena. -/
def EdgeStep (t : List Container) (u v : Nat) : Prop :=
  u < t.length ∧ pointsTo (getC t u) v

/-- A path along a relation, recorded as the list of nodes after the start. -/
inductive RPath (r : Nat → Nat → Prop) : Nat → List Nat → Nat → Prop where
  | refl (a : Nat) : RPath r a [] a
  | cons {a b c : Nat} {l : List Nat} :
      r a b → RPath r b l c → RPath r a (b :: l) c

/-- Acyclicity of the link relation: no container reaches itself through a
non-empty `first_child`/`next_sibling` chain. -/
def Acyclic (t : List Container) : Prop :=
  ∀ a l, RPath (EdgeStep t) a l a → l = []

/-- Fuelled index-level reachability along `first_child`/`next_sibling`. -/
def reachIdxF (t : List Container) : Nat → Nat → Nat → Bool
  | 0, _, _ => false
  | fuel+1, a, b =>
    (a == b)
    || (match (getC t a).first_child with
        | some v => reachIdxF t fuel v b
        | none => false)
    || (match (getC t a).next_sibling with
        | some v => reachIdxF t fuel v b
        | none => false)

/-- Executable acyclicity check: no link's target reaches back to its
source. -/
def acyclicCheck (t : List Container) : Bool :=
  (List.range t.length).all fun a =>
    (match (getC t a).first_child with
     | some v => ! reachIdxF t (t.length + 1) v a
     | none => true)
    && (match (getC t a).next_sibling with
        | some v => ! reachIdxF t (t.length + 1) v a
        | none => true)

/-! ## C4: `Threads::sort_by` memoization (thread.rs 302-312), with
`inner_sort_by` (262-301), `inner_subsort_by` (218-260), `SortField` /
`SortOrder` (39-49) and `ContainerTree` (107-123).  The `RefCell`-held
`tree`, `sort` and `subsort` cells are plain fields of the embedded state. -/

/-- `SortOrder` (thread.rs 39-43). -/
inductive SortOrderM where
  | asc
  | desc
deriving DecidableEq

/-- `SortField` (thread.rs 45-49). -/
inductive SortFieldM where
  | subject
  | date
deriving DecidableEq

/-- `ContainerTree` (thread.rs 107-112): the presentation-tree node. -/
inductive ContainerTree where
  | node (id : Nat) (children : Option (List ContainerTree)) (len : Nat)
      (has_unseen : Bool)

/-- The `id` of a presentation-tree node. -/
def ContainerTree.idOf : ContainerTree → Nat
  | .node i _ _ _ => i

instance : Inhabited ThreadEnvelope := ⟨{ message_id := "" }⟩

/-- Collection indexing `collection[i]`. -/
def getEnv (coll : List ThreadEnvelope) (i : Nat) : ThreadEnvelope :=
  coll.getD i default

/-- Rust `Ord::cmp` on `usize`. -/
def cmpNat (a b : Nat) : Ordering :=
  if a < b then .lt else if a = b then .eq else .gt

/-- Rust `Ord::cmp` on strings: lexicographic (byte order; the embedding
compares scalar values, which agrees on ASCII). -/
def cmpListChar : List Char → List Char → Ordering
  | [], [] => .eq
  | [], _ :: _ => .lt
  | _ :: _, [] => .gt
  | a :: as, b :: bs =>
    match cmpNat a.toNat b.toNat with
    | .eq => cmpListChar as bs
    | o => o

/-- String comparison via the underlying characters. -/
def cmpStr (a b : String) : Ordering := cmpListChar a.data b.data

/-- The comparator shared by `inner_sort_by` and `inner_subsort_by`
(thread.rs 223-256 and 265-299): Date compares rolled-up container dates
(operands swapped for Desc); Subject compares the envelopes' subjects when
both containers carry messages and treats the rest as equal. -/
def treeCmp (key : SortFieldM × SortOrderM) (containers : List Container)
    (coll : List ThreadEnvelope) (a b : ContainerTree) : Ordering :=
  match key with
  | (.date, .desc) => cmpNat (getC containers b.idOf).date (getC containers a.idOf).date
  | (.date, .asc) => cmpNat (getC containers a.idOf).date (getC containers b.idOf).date
  | (.subject, .desc) =>
    match (getC containers a.idOf).message, (getC containers b.idOf).message with
    | some ma, some mb => cmpStr (getEnv coll ma).subject (getEnv coll mb).subject
    | _, _ => .eq
  | (.subject, .asc) =>
    match (getC containers a.idOf).message, (getC containers b.idOf).message with
    | some ma, some mb => cmpStr (getEnv coll mb).subject (getEnv coll ma).subject
    | _, _ => .eq

/-- Rust `slice::sort_by` (stable, ascending per the comparator). -/
def sortByCmp {α : Type _} (cmp : α → α → Ordering) (l : List α) : List α :=
  l.mergeSort (fun a b => decide (cmp a b ≠ Ordering.gt))

/-- `inner_sort_by` (thread.rs 262-301): sorts the top-level tree. -/
def innerSortBy (key : SortFieldM × SortOrderM) (containers : List Container)
    (coll : List ThreadEnvelope) (tree : List ContainerTree) : List ContainerTree :=
  sortByCmp (treeCmp key containers coll) tree

/-- `inner_subsort_by` (thread.rs 218-260): sorts each root's child list. -/
def innerSubsortBy (key : SortFieldM × SortOrderM) (containers : List Container)
    (coll : List ThreadEnvelope) (tree : List ContainerTree) : List ContainerTree :=
  tree.map fun t =>
    match t with
    | .node i (some ch) len hu =>
      .node i (some (sortByCmp (treeCmp key containers coll) ch)) len hu
    | t => t

/-- The `Threads` structure (thread.rs 126-134); the `RefCell` interiors are
plain fields. -/
structure ThreadsState where
  containers : List Container
  threaded_collection : List Nat
  root_set : List Nat
  tree : List ContainerTree
  sort : SortFieldM × SortOrderM
  subsort : SortFieldM × SortOrderM

/-- `Threads::sort_by` (thread.rs 302-312): each of the two sorts runs only
when the requested key differs from the cached last-applied key, and the
cache is updated alongside. -/
def threadsSortBy (th : ThreadsState) (sort subsort : SortFieldM × SortOrderM)
    (coll : List ThreadEnvelope) : ThreadsState :=
  let th1 :=
    if th.sort ≠ sort then
      { th with tree := innerSortBy sort th.containers coll th.tree, sort := sort }
    else th
  if th1.subsort ≠ subsort then
    let tree2 := innerSubsortBy subsort th1.containers coll th1.tree
    { th1 with tree := tree2, subsort := subsort }
  else th1

/-- C4: calling `sort_by` twice with the same sort and subsort keys leaves
the state of the second call identical to the first call's result — the
second call mutates neither the presentation tree nor the arena, because the
requested keys equal the cached last-applied keys. -/
theorem c4_sort_by_idempotent :
    ∀ (th : ThreadsState) (sort subsort : SortFieldM × SortOrderM)
      (coll : List ThreadEnvelope),
      threadsSortBy (threadsSortBy th sort subsort coll) sort subsort coll
        = threadsSortBy th sort subsort coll := by
  intro th sort subsort coll
  have h1 : (threadsSortBy th sort subsort coll).sort = sort := by
    by_cases hc : th.sort = sort <;> by_cases hd : th.subsort = subsort <;>
      simp [threadsSortBy, hc, hd]
  have h2 : (threadsSortBy th sort subsort coll).subsort = subsort := by
    by_cases hc : th.sort = sort <;> by_cases hd : th.subsort = subsort <;>
      simp [threadsSortBy, hc, hd]
  have key : ∀ th' : ThreadsState, th'.sort = sort → th'.subsort = subsort →
      threadsSortBy th' sort subsort coll = th' := by
    intro th' ha hb
    simp [threadsSortBy, ha, hb]
  exact key _ h1 h2

/-! ### Arena access lemmas -/

theorem getC_set_self {t : List Container} {i : Nat} (c : Container)
    (h : i < t.length) : getC (t.set i c) i = c := by
  simp [getC, List.getD, List.getElem?_set_self', h]

theorem getC_set_ne {t : List Container} {i j : Nat} (c : Container)
    (h : i ≠ j) : getC (t.set i c) j = getC t j := by
  simp [getC, List.getD, List.getElem?_set_ne h]

theorem getC_append_lt {t l2 : List Container} {i : Nat} (h : i < t.length) :
    getC (t ++ l2) i = getC t i := by
  simp [getC, List.getD, List.getElem?_append_left h]

theorem getC_append_self {t : List Container} (c : Container) :
    getC (t ++ [c]) t.length = c := by
  simp [getC, List.getD, List.getElem?_append_right (le_refl _)]

theorem getC_of_le {t : List Container} {i : Nat} (h : t.length ≤ i) :
    getC t i = default := by
  simp [getC, List.getD, List.getElem?_eq_none h]

theorem getC_append_gt {t : List Container} {c : Container} {i : Nat}
    (h : t.length < i) : getC (t ++ [c]) i = getC t i := by
  rw [getC_of_le (by simp; omega), getC_of_le (by omega)]

/-! ### Generic path lemmas -/

theorem RPath.trans {r : Nat → Nat → Prop} {a b c : Nat} {l1 l2 : List Nat}
    (h1 : RPath r a l1 b) (h2 : RPath r b l2 c) : RPath r a (l1 ++ l2) c := by
  induction h1 with
  | refl => simpa using h2
  | cons hr _ ih => exact RPath.cons hr (ih h2)

theorem RPath.mono {r r' : Nat → Nat → Prop} (h : ∀ u v, r u v → r' u v)
    {a b : Nat} {l : List Nat} (hp : RPath r a l b) : RPath r' a l b := by
  induction hp with
  | refl => exact RPath.refl _
  | cons hr _ ih => exact RPath.cons (h _ _ hr) ih

theorem RPath.congr {r r' : Nat → Nat → Prop} (h : ∀ u v, r u v ↔ r' u v)
    {a b : Nat} {l : List Nat} : RPath r a l b ↔ RPath r' a l b :=
  ⟨RPath.mono (fun u v => (h u v).mp), RPath.mono (fun u v => (h u v).mpr)⟩

theorem RPath.snoc_decomp {r : Nat → Nat → Prop} {a b : Nat} {l : List Nat}
    (hp : RPath r a l b) (hne : l ≠ []) :
    ∃ w l', l = l' ++ [b] ∧ RPath r a l' w ∧ r w b := by
  induction hp with
  | refl => exact absurd rfl hne
  | @cons a w c l' hr htail ih =>
    cases l' with
    | nil =>
      cases htail
      exact ⟨a, [], by simp, RPath.refl a, hr⟩
    | cons y ys =>
      obtain ⟨w', l'', heq, hp', hr'⟩ := ih (by simp)
      exact ⟨w', w :: l'', by simp [heq], RPath.cons hr hp', hr'⟩

theorem RPath.split_at {r : Nat → Nat → Prop} {a b c : Nat} {l1 l2 : List Nat}
    (hp : RPath r a (l1 ++ c :: l2) b) :
    RPath r a (l1 ++ [c]) c ∧ RPath r c l2 b := by
  induction l1 generalizing a with
  | nil =>
    cases hp with
    | cons hr htail => exact ⟨RPath.cons hr (RPath.refl c), htail⟩
  | cons y ys ih =>
    cases hp with
    | cons hr htail =>
      obtain ⟨h1, h2⟩ := ih htail
      exact ⟨RPath.cons hr h1, h2⟩

/-- Along an acyclic relation, every path is repetition-free. -/
theorem RPath.nodup {r : Nat → Nat → Prop}
    (hA : ∀ a l, RPath r a l a → l = [])
    {a b : Nat} {l : List Nat} (hp : RPath r a l b) : (a :: l).Nodup := by
  induction hp with
  | refl => simp
  | @cons a w c l' hr htail ih =>
    refine List.Nodup.cons ?_ ih
    intro hmem
    rcases List.mem_cons.mp hmem with heq | hmem'
    · subst heq
      have := hA a [a] (RPath.cons hr (RPath.refl a))
      simp at this
    · obtain ⟨l1, l2, heq⟩ := List.append_of_mem hmem'
      subst heq
      obtain ⟨h1, _⟩ := RPath.split_at htail
      have := hA a (w :: l1 ++ [a]) (RPath.cons hr h1)
      simp at this

/-- Decomposition of a path over a relation extended by one edge `(s, x)`:
either the path avoids the new edge, or it reaches `s` in the old relation
and continues from `x`. -/
theorem RPath.addEdge_decomp {r : Nat → Nat → Prop} {s x : Nat}
    {a b : Nat} {l : List Nat}
    (hp : RPath (fun u v => r u v ∨ (u = s ∧ v = x)) a l b) :
    RPath r a l b
    ∨ ∃ l1 l2, RPath r a l1 s
        ∧ RPath (fun u v => r u v ∨ (u = s ∧ v = x)) x l2 b
        ∧ l = l1 ++ x :: l2 := by
  induction hp with
  | refl => exact Or.inl (RPath.refl _)
  | @cons a w c l' hr htail ih =>
    rcases hr with hr | ⟨rfl, rfl⟩
    · rcases ih with hold | ⟨l1, l2, h1, h2, heq⟩
      · exact Or.inl (RPath.cons hr hold)
      · exact Or.inr ⟨w :: l1, l2, RPath.cons hr h1, h2, by simp [heq]⟩
    · exact Or.inr ⟨[], l', RPath.refl _, htail, by simp⟩

/-- If `x` never reaches `s` in the old relation, paths ending at `s` never
use the new edge `(s, x)`. -/
theorem RPath.no_new_edge_to_src {r : Nat → Nat → Prop} {s x : Nat}
    (hxs : ∀ l, ¬ RPath r x l s) :
    ∀ n l a, l.length = n →
      RPath (fun u v => r u v ∨ (u = s ∧ v = x)) a l s → RPath r a l s := by
  intro n
  induction n using Nat.strong_induction_on with
  | _ n ih =>
    intro l a hlen hp
    cases hp with
    | refl => exact RPath.refl _
    | @cons a w c l' hr htail =>
      rcases hr with hr | ⟨rfl, rfl⟩
      · exact RPath.cons hr (ih l'.length (by subst hlen; simp) l' w rfl htail)
      · exact absurd (ih l'.length (by subst hlen; simp) l' _ rfl htail) (hxs l')

/-- Adding an edge `(s, x)` to an acyclic relation keeps it acyclic when `x`
does not reach `s`. -/
theorem RPath.addEdge_acyclic {r : Nat → Nat → Prop} {s x : Nat}
    (hA : ∀ a l, RPath r a l a → l = [])
    (hxs : ∀ l, ¬ RPath r x l s) :
    ∀ a l, RPath (fun u v => r u v ∨ (u = s ∧ v = x)) a l a → l = [] := by
  intro a l hp
  rcases RPath.addEdge_decomp hp with hold | ⟨l1, l2, h1, h2, heq⟩
  · exact hA a l hold
  · exfalso
    have hpath : RPath (fun u v => r u v ∨ (u = s ∧ v = x)) x (l2 ++ l1) s :=
      RPath.trans h2 (RPath.mono (fun u v h => Or.inl h) h1)
    exact hxs (l2 ++ l1)
      (RPath.no_new_edge_to_src hxs (l2 ++ l1).length _ _ rfl hpath)

/-! ### Edge characterization under the arena mutations -/

theorem EdgeStep_set_preserve {t : List Container} {i : Nat} {c : Container}
    (hfc : c.first_child = (getC t i).first_child)
    (hns : c.next_sibling = (getC t i).next_sibling) (u v : Nat) :
    EdgeStep (t.set i c) u v ↔ EdgeStep t u v := by
  by_cases hlt : i < t.length
  · by_cases hui : i = u
    · subst hui
      simp only [EdgeStep, List.length_set, getC_set_self c hlt, pointsTo, hfc, hns]
    · simp only [EdgeStep, List.length_set, getC_set_ne c hui]
  · rw [List.set_eq_of_length_le (by omega)]

theorem EdgeStep_set_fc {t : List Container} {p x : Nat} (hp : p < t.length)
    (hfc : (getC t p).first_child = none) (u v : Nat) :
    EdgeStep (t.set p { getC t p with first_child := some x }) u v
      ↔ EdgeStep t u v ∨ (u = p ∧ v = x) := by
  by_cases hup : p = u
  · subst hup
    simp only [EdgeStep, List.length_set, getC_set_self _ hp, pointsTo, hfc]
    constructor
    · rintro ⟨hlt, h | h⟩
      · injection h with h
        subst h
        exact Or.inr ⟨trivial, rfl⟩
      · exact Or.inl ⟨hp, Or.inr h⟩
    · rintro (⟨hlt, h | h⟩ | ⟨-, rfl⟩)
      · simp [hfc] at h
      · exact ⟨hp, Or.inr h⟩
      · exact ⟨hp, Or.inl rfl⟩
  · simp only [EdgeStep, List.length_set, getC_set_ne _ hup]
    constructor
    · exact fun h => Or.inl h
    · rintro (h | ⟨rfl, _⟩)
      · exact h
      · exact absurd rfl hup

theorem EdgeStep_set_ns {t : List Container} {i p x : Nat} (hi : i < t.length)
    (hns : (getC t i).next_sibling = none) (u v : Nat) :
    EdgeStep (t.set i { getC t i with next_sibling := some x, parent := some p }) u v
      ↔ EdgeStep t u v ∨ (u = i ∧ v = x) := by
  by_cases hui : i = u
  · subst hui
    simp only [EdgeStep, List.length_set, getC_set_self _ hi, pointsTo, hns]
    constructor
    · rintro ⟨hlt, h | h⟩
      · exact Or.inl ⟨hi, Or.inl h⟩
      · injection h with h
        subst h
        exact Or.inr ⟨trivial, rfl⟩
    · rintro (⟨hlt, h | h⟩ | ⟨-, rfl⟩)
      · exact ⟨hi, Or.inl h⟩
      · simp [hns] at h
      · exact ⟨hi, Or.inr rfl⟩
  · simp only [EdgeStep, List.length_set, getC_set_ne _ hui]
    constructor
    · exact fun h => Or.inl h
    · rintro (h | ⟨rfl, _⟩)
      · exact h
      · exact absurd rfl hui

theorem EdgeStep_append {t : List Container} {c : Container} (u v : Nat) :
    EdgeStep (t ++ [c]) u v ↔ EdgeStep t u v ∨ (u = t.length ∧ pointsTo c v) := by
  constructor
  · rintro ⟨hlt, hpt⟩
    by_cases hu : u < t.length
    · rw [getC_append_lt hu] at hpt
      exact Or.inl ⟨hu, hpt⟩
    · have hu2 : u = t.length := by simp at hlt; omega
      subst hu2
      rw [getC_append_self] at hpt
      exact Or.inr ⟨rfl, hpt⟩
  · rintro (⟨hu, hpt⟩ | ⟨rfl, hpt⟩)
    · exact ⟨by simp; omega, by rw [getC_append_lt hu]; exact hpt⟩
    · exact ⟨by simp, by rw [getC_append_self]; exact hpt⟩

/-! ### The construction invariant -/

/-- `x` has no incoming `first_child`/`next_sibling` link. -/
def NoIn (t : List Container) (x : Nat) : Prop := ∀ u, ¬ EdgeStep t u x

/-- The arena invariant maintained by the construction: link targets are
valid indices, every container has at most one incoming link, messageless
containers (placeholders) have none, and the link relation is acyclic. -/
structure ArenaInv (t : List Container) : Prop where
  tgt : ∀ u v, EdgeStep t u v → v < t.length
  uniq : ∀ u u' v, EdgeStep t u v → EdgeStep t u' v → u = u'
  msgNone : ∀ v, v < t.length → (getC t v).message = none → NoIn t v
  acyc : Acyclic t

theorem ArenaInv.nil : ArenaInv [] := by
  refine ⟨?_, ?_, ?_, ?_⟩ <;>
    first
    | exact fun u v h => absurd h.1 (by simp)
    | exact fun u u' v h _ => absurd h.1 (by simp)
    | exact fun v h => absurd h (by simp)
    | exact fun a l h => by
        cases h with
        | refl => rfl
        | cons hr _ => exact absurd hr.1 (by simp)

/-- Transport of the invariant across an arena with identical length, links
and a message assignment that only ever fills `none` slots in. -/
theorem ArenaInv.transport {t t' : List Container}
    (hlen : t'.length = t.length)
    (hedge : ∀ u v, EdgeStep t' u v ↔ EdgeStep t u v)
    (hmsg : ∀ i, (getC t' i).message = none → (getC t i).message = none)
    (h : ArenaInv t) : ArenaInv t' := by
  refine ⟨?_, ?_, ?_, ?_⟩
  · intro u v he
    rw [hlen]
    exact h.tgt u v ((hedge u v).mp he)
  · intro u u' v he he'
    exact h.uniq u u' v ((hedge u v).mp he) ((hedge u' v).mp he')
  · intro v hv hm u he
    exact h.msgNone v (by omega) (hmsg v hm) u ((hedge u v).mp he)
  · intro a l hp
    exact h.acyc a l ((RPath.congr hedge).mp hp)

/-! ### Bounded paths and completeness of the fuelled `is_descendant` -/

theorem RPath.mem_lt {t : List Container} {a b : Nat} {l : List Nat}
    (hp : RPath (EdgeStep t) a l b) (hb : b < t.length) :
    ∀ y ∈ a :: l, y < t.length := by
  induction hp with
  | refl => simpa using hb
  | @cons a w c l' hr htail ih =>
    intro y hy
    rcases List.mem_cons.mp hy with rfl | hy'
    · exact hr.1
    · exact ih hb y hy'

theorem RPath.length_le {t : List Container} {a b : Nat} {l : List Nat}
    (hA : Acyclic t) (hp : RPath (EdgeStep t) a l b) (hb : b < t.length) :
    l.length < t.length + 1 := by
  have hnd : (a :: l).Nodup := RPath.nodup hA hp
  have hlt : ∀ y ∈ a :: l, y < t.length := RPath.mem_lt hp hb
  have hle : (a :: l).length ≤ t.length := by
    calc (a :: l).length = (a :: l).toFinset.card :=
          (List.toFinset_card_of_nodup hnd).symm
      _ ≤ (Finset.range t.length).card := Finset.card_le_card (by
          intro y hy
          simp only [List.mem_toFinset] at hy
          simp [hlt y hy])
      _ = t.length := Finset.card_range _
  simp at hle
  omega

theorem containerEq_refl (c : Container) : containerEq c c = true := by
  unfold containerEq
  cases c.message <;> simp

theorem isDescendantF_complete {t : List Container} {a b : Nat} {l : List Nat}
    (hp : RPath (EdgeStep t) a l b) :
    ∀ fuel, l.length < fuel →
      isDescendantF t fuel (getC t a) (getC t b) = true := by
  induction hp with
  | refl =>
    intro fuel hfuel
    match fuel, hfuel with
    | fuel+1, _ =>
      simp [isDescendantF, containerEq_refl]
  | @cons a w c l' hr htail ih =>
    intro fuel hfuel
    match fuel, hfuel with
    | fuel+1, hfuel =>
      have hrec := ih fuel (by simpa using hfuel)
      rcases hr.2 with hfc | hns
      · simp [isDescendantF, hfc, hrec]
      · simp [isDescendantF, hns, hrec]

/-- When the fuelled `is_descendant` with fuel `t.length + 1` reports no
reachability on an acyclic arena, there is no path at all. -/
theorem guard_no_path {t : List Container} {x p : Nat}
    (hA : Acyclic t) (hp : p < t.length)
    (hguard : isDescendantF t (t.length + 1) (getC t x) (getC t p) = false) :
    ∀ l, ¬ RPath (EdgeStep t) x l p := by
  intro l hpath
  have := isDescendantF_complete hpath (t.length + 1)
    (RPath.length_le hA hpath hp)
  rw [this] at hguard
  exact Bool.true_eq_false.mp hguard

/-- With unique incoming links and a link-free `x`, any container reachable
both from `q` and from `x` forces `x` to reach `q`: paths can only merge at a
container's unique incoming link, so the path from `x` must run through
`q`. -/
theorem reach_back {t : List Container} (hI : ArenaInv t) {x : Nat}
    (hnx : NoIn t x) :
    ∀ n (l : List Nat) (q w : Nat), l.length = n →
      RPath (EdgeStep t) q l w → ∀ l2, RPath (EdgeStep t) x l2 w →
      ∃ l3, RPath (EdgeStep t) x l3 q := by
  intro n
  induction n using Nat.strong_induction_on with
  | _ n ih =>
    intro l q w hlen hqw l2 hxw
    rcases eq_or_ne l [] with rfl | hne
    · cases hqw with
      | refl => exact ⟨l2, hxw⟩
    · obtain ⟨w', l', heq, hqw', hr⟩ := RPath.snoc_decomp hqw hne
      rcases eq_or_ne l2 [] with rfl | hne2
      · cases hxw with
        | refl => exact absurd hr (hnx w')
      · obtain ⟨u', l2', heq2, hxu', hr2⟩ := RPath.snoc_decomp hxw hne2
        have huw : u' = w' := hI.uniq u' w' w hr2 hr
        subst huw
        exact ih l'.length (by subst hlen; subst heq; simp) l' q u' rfl hqw'
          l2' hxu'

/-- Extending an invariant arena with one link `(s, x)` (by an in-place
`set`), when `x` is a valid message container with no incoming link and no
path back to `s`, preserves the invariant. -/
theorem ArenaInv.addEdge {t t' : List Container} {s x : Nat}
    (hlen : t'.length = t.length)
    (hchar : ∀ u v, EdgeStep t' u v ↔ EdgeStep t u v ∨ (u = s ∧ v = x))
    (hmsg : ∀ i, (getC t' i).message = none → (getC t i).message = none)
    (hI : ArenaInv t) (hx : x < t.length)
    (hxmsg : (getC t x).message ≠ none)
    (hnoin : NoIn t x)
    (hnopath : ∀ l, ¬ RPath (EdgeStep t) x l s) : ArenaInv t' := by
  refine ⟨?_, ?_, ?_, ?_⟩
  · intro u v he
    rcases (hchar u v).mp he with h | ⟨rfl, rfl⟩
    · rw [hlen]
      exact hI.tgt u v h
    · omega
  · intro u u' v he he'
    rcases (hchar u v).mp he with h | ⟨hu, hv⟩ <;>
      rcases (hchar u' v).mp he' with h' | ⟨hu', hv'⟩
    · exact hI.uniq u u' v h h'
    · subst hv'
      exact absurd h (hnoin u)
    · subst hv
      exact absurd h' (hnoin u')
    · rw [hu, hu']
  · intro v hv hm u he
    rcases (hchar u v).mp he with h | ⟨rfl, rfl⟩
    · exact hI.msgNone v (by omega) (hmsg v hm) u h
    · exact hxmsg (hmsg v hm)
  · intro a l hp
    have hp' : RPath (fun u v => EdgeStep t u v ∨ (u = s ∧ v = x)) a l a :=
      (RPath.congr hchar).mp hp
    exact RPath.addEdge_acyclic hI.acyc hnopath a l hp'

/-- A placeholder's links: exactly one, to its creating container. -/
theorem pointsTo_placeholder (z x d v : Nat) :
    pointsTo (placeholderContainer z x d) v ↔ v = x := by
  simp [placeholderContainer, pointsTo, eq_comm]

/-- Pushing a container with no outgoing links preserves the invariant. -/
theorem ArenaInv.pushNoLinks {t : List Container} {c : Container}
    (hI : ArenaInv t) (hfc : c.first_child = none)
    (hns : c.next_sibling = none) : ArenaInv (t ++ [c]) := by
  have hchar : ∀ u v, EdgeStep (t ++ [c]) u v ↔ EdgeStep t u v := by
    intro u v
    rw [EdgeStep_append]
    simp [pointsTo, hfc, hns]
  refine ⟨?_, ?_, ?_, ?_⟩
  · intro u v he
    have := hI.tgt u v ((hchar u v).mp he)
    simp
    omega
  · intro u u' v he he'
    exact hI.uniq u u' v ((hchar u v).mp he) ((hchar u' v).mp he')
  · intro v hv hm u he
    by_cases hvlt : v < t.length
    · rw [getC_append_lt hvlt] at hm
      exact hI.msgNone v hvlt hm u ((hchar u v).mp he)
    · have := hI.tgt u v ((hchar u v).mp he)
      omega
  · intro a l hp
    exact hI.acyc a l ((RPath.congr hchar).mp hp)

/-- Pushing a placeholder whose `first_child` is a valid, link-free message
container preserves the invariant. -/
theorem ArenaInv.pushPlaceholder {t : List Container} {x d : Nat}
    (hI : ArenaInv t) (hx : x < t.length)
    (hxmsg : (getC t x).message ≠ none) (hnoin : NoIn t x) :
    ArenaInv (t ++ [placeholderContainer t.length x d]) := by
  have hchar : ∀ u v, EdgeStep (t ++ [placeholderContainer t.length x d]) u v
      ↔ EdgeStep t u v ∨ (u = t.length ∧ v = x) := by
    intro u v
    rw [EdgeStep_append]
    rw [pointsTo_placeholder]
  have hnopath : ∀ l, ¬ RPath (EdgeStep t) x l t.length := by
    intro l hp
    rcases eq_or_ne l [] with rfl | hne
    · cases hp with
      | refl => omega
    · obtain ⟨w, l', _, _, hr⟩ := RPath.snoc_decomp hp hne
      have := hI.tgt w t.length hr
      omega
  refine ⟨?_, ?_, ?_, ?_⟩
  · intro u v he
    rcases (hchar u v).mp he with h | ⟨rfl, rfl⟩
    · have := hI.tgt u v h
      simp
      omega
    · simp
      omega
  · intro u u' v he he'
    rcases (hchar u v).mp he with h | ⟨hu, hv⟩ <;>
      rcases (hchar u' v).mp he' with h' | ⟨hu', hv'⟩
    · exact hI.uniq u u' v h h'
    · subst hv'
      exact absurd h (hnoin u)
    · subst hv
      exact absurd h' (hnoin u')
    · rw [hu, hu']
  · intro v hv hm u he
    by_cases hvlt : v < t.length
    · rw [getC_append_lt hvlt] at hm
      rcases (hchar u v).mp he with h | ⟨rfl, rfl⟩
      · exact hI.msgNone v hvlt hm u h
      · exact hxmsg hm
    · rcases (hchar u v).mp he with h | ⟨rfl, rfl⟩
      · have := hI.tgt u v h
        omega
      · omega
  · intro a l hp
    have hp' : RPath (fun u v => EdgeStep t u v ∨ (u = t.length ∧ v = x)) a l a :=
      (RPath.congr hchar).mp hp
    exact RPath.addEdge_acyclic hI.acyc hnopath a l hp'

/-! ### Field preservation through `updateDates` and `appendChild` -/

theorem getC_set_eq_ite (t : List Container) (i : Nat) (c : Container)
    (j : Nat) :
    getC (t.set i c) j = if j = i ∧ i < t.length then c else getC t j := by
  by_cases hj : j = i
  · subst hj
    by_cases hi : j < t.length
    · simp [getC_set_self c hi, hi]
    · rw [List.set_eq_of_length_le (by omega)]
      simp [hi]
  · have hne : i ≠ j := fun h => hj h.symm
    simp [getC_set_ne c hne, hj]

/-- The `'date` walk changes nothing but `date` fields: length, messages and
links are untouched. -/
theorem updateDates_fields : ∀ fuel t i date,
    (updateDates fuel t i date).length = t.length ∧
    ∀ j, (getC (updateDates fuel t i date) j).message = (getC t j).message ∧
      (getC (updateDates fuel t i date) j).first_child
        = (getC t j).first_child ∧
      (getC (updateDates fuel t i date) j).next_sibling
        = (getC t j).next_sibling := by
  intro fuel
  induction fuel with
  | zero => exact fun t i date => ⟨rfl, fun j => ⟨rfl, rfl, rfl⟩⟩
  | succ fuel ih =>
    intro t i date
    have hstep : ∀ (t' : List Container), t'.length = t.length →
        (∀ j, (getC t' j).message = (getC t j).message ∧
          (getC t' j).first_child = (getC t j).first_child ∧
          (getC t' j).next_sibling = (getC t j).next_sibling) →
        ∀ nxt,
        (updateDates fuel t' nxt date).length = t.length ∧
        ∀ j, (getC (updateDates fuel t' nxt date) j).message
            = (getC t j).message ∧
          (getC (updateDates fuel t' nxt date) j).first_child
            = (getC t j).first_child ∧
          (getC (updateDates fuel t' nxt date) j).next_sibling
            = (getC t j).next_sibling := by
      intro t' hlen hfields nxt
      obtain ⟨hlen2, hfields2⟩ := ih t' nxt date
      refine ⟨by rw [hlen2, hlen], fun j => ?_⟩
      obtain ⟨h1, h2, h3⟩ := hfields2 j
      obtain ⟨g1, g2, g3⟩ := hfields j
      exact ⟨h1.trans g1, h2.trans g2, h3.trans g3⟩
    have hset : ∀ c0 : Container, c0.message = (getC t i).message →
        c0.first_child = (getC t i).first_child →
        c0.next_sibling = (getC t i).next_sibling →
        (t.set i c0).length = t.length ∧
        ∀ j, (getC (t.set i c0) j).message = (getC t j).message ∧
          (getC (t.set i c0) j).first_child = (getC t j).first_child ∧
          (getC (t.set i c0) j).next_sibling = (getC t j).next_sibling := by
      intro c0 hm hf hn
      refine ⟨by simp, fun j => ?_⟩
      rw [getC_set_eq_ite]
      by_cases hj : j = i ∧ i < t.length
      · rw [if_pos hj]
        rw [hj.1]
        exact ⟨hm, hf, hn⟩
      · rw [if_neg hj]
        exact ⟨rfl, rfl, rfl⟩
    show (updateDates (fuel+1) t i date).length = t.length ∧ _
    rw [updateDates]
    by_cases hd : (getC t i).date < date
    · rw [if_pos hd]
      cases hpar : (getC t i).parent with
      | some pp =>
        exact hstep (t.set i { getC t i with date := date, parent := some pp })
          (hset { getC t i with date := date, parent := some pp } rfl rfl rfl).1
          (hset { getC t i with date := date, parent := some pp } rfl rfl rfl).2
          pp
      | none =>
        exact hset { getC t i with date := date, parent := none } rfl rfl rfl
    · rw [if_neg hd]
      cases hpar : (getC t i).parent with
      | some pp =>
        exact hstep t rfl (fun j => ⟨rfl, rfl, rfl⟩) pp
      | none => exact ⟨rfl, fun j => ⟨rfl, rfl, rfl⟩⟩

/-- Link-level consequence: `updateDates` leaves the edge relation alone. -/
theorem EdgeStep_updateDates (fuel : Nat) (t : List Container) (i date u v :
    Nat) : EdgeStep (updateDates fuel t i date) u v ↔ EdgeStep t u v := by
  obtain ⟨hlen, hfields⟩ := updateDates_fields fuel t i date
  obtain ⟨-, h2, h3⟩ := hfields u
  simp only [EdgeStep, pointsTo, hlen, h2, h3]

/-- The sibling-append walk changes no lengths and no messages. -/
theorem appendChild_fields : ∀ fuel t iter p x,
    (appendChild fuel t iter p x).length = t.length ∧
    ∀ j, (getC (appendChild fuel t iter p x) j).message
        = (getC t j).message := by
  intro fuel
  induction fuel with
  | zero => exact fun t iter p x => ⟨rfl, fun j => rfl⟩
  | succ fuel ih =>
    intro t iter p x
    rw [appendChild]
    cases hns : (getC t iter).next_sibling with
    | some nxt =>
      obtain ⟨hlen, hfields⟩ :=
        ih (t.set iter { getC t iter with parent := some p }) nxt p x
      refine ⟨by rw [hlen]; simp, fun j => ?_⟩
      rw [hfields j, getC_set_eq_ite]
      by_cases hj : j = iter ∧ iter < t.length
      · rw [if_pos hj, hj.1]
      · rw [if_neg hj]
    | none =>
      refine ⟨by simp, fun j => ?_⟩
      rw [getC_set_eq_ite]
      by_cases hj : j = iter ∧ iter < t.length
      · rw [if_pos hj, hj.1]
      · rw [if_neg hj]

/-- The sibling-append walk preserves the arena invariant when the appended
container is a valid, link-free message container that cannot reach the walk
start.  The walk's intermediate `parent` re-sets touch no links; the final
`next_sibling` set is an `ArenaInv.addEdge` at the chain's end, and
`reach_back` pushes the no-path fact one sibling forward at每 step. -/
theorem appendChild_inv : ∀ fuel t iter p x,
    ArenaInv t → x < t.length → (getC t x).message ≠ none → NoIn t x →
    (∀ l, ¬ RPath (EdgeStep t) x l iter) →
    ArenaInv (appendChild fuel t iter p x) := by
  intro fuel
  induction fuel with
  | zero => exact fun t iter p x hI _ _ _ _ => hI
  | succ fuel ih =>
    intro t iter p x hI hx hxmsg hnoin hniter
    rw [appendChild]
    cases hns : (getC t iter).next_sibling with
    | some nxt =>
      have hiter : iter < t.length := by
        by_contra h
        rw [getC_of_le (le_of_not_lt h)] at hns
        exact Option.noConfusion hns
      have hedge : ∀ u v,
          EdgeStep (t.set iter { getC t iter with parent := some p }) u v
            ↔ EdgeStep t u v := EdgeStep_set_preserve rfl rfl
      have hmsgs : ∀ j,
          (getC (t.set iter { getC t iter with parent := some p }) j).message
            = (getC t j).message := by
        intro j
        rw [getC_set_eq_ite]
        by_cases hj : j = iter ∧ iter < t.length
        · rw [if_pos hj, hj.1]
        · rw [if_neg hj]
      have hI1 : ArenaInv (t.set iter { getC t iter with parent := some p }) :=
        ArenaInv.transport (by simp) hedge (fun i h => (hmsgs i) ▸ h) hI
      refine ih _ nxt p x hI1 (by simpa using hx)
        (by rw [hmsgs x]; exact hxmsg)
        (fun u he => hnoin u ((hedge u x).mp he)) ?_
      intro l hpath1
      have hpath : RPath (EdgeStep t) x l nxt := (RPath.congr hedge).mp hpath1
      have hstep : RPath (EdgeStep t) iter [nxt] nxt :=
        RPath.cons ⟨hiter, Or.inr hns⟩ (RPath.refl nxt)
      obtain ⟨l3, hp3⟩ := reach_back hI hnoin 1 [nxt] iter nxt rfl hstep l hpath
      exact hniter l3 hp3
    | none =>
      by_cases hiter : iter < t.length
      · refine ArenaInv.addEdge (by simp)
          (EdgeStep_set_ns hiter hns) ?_ hI hx hxmsg hnoin hniter
        intro i h
        rw [getC_set_eq_ite] at h
        by_cases hj : i = iter ∧ iter < t.length
        · rw [if_pos hj] at h
          rw [hj.1]
          exact h
        · rw [if_neg hj] at h
          exact h
      · simp only [List.set_eq_of_length_le (show t.length ≤ iter by omega)]
        exact hI

/-! ### Preservation of the construction invariant -/

theorem getC_set_msg {t : List Container} {i : Nat} (c : Container)
    (hm : c.message = (getC t i).message) (j : Nat) :
    (getC (t.set i c) j).message = (getC t j).message := by
  rw [getC_set_eq_ite]
  by_cases hj : j = i ∧ i < t.length
  · rw [if_pos hj, hj.1]
    exact hm
  · rw [if_neg hj]

theorem arenaInv_updateDates {t : List Container} (hI : ArenaInv t)
    (fuel i d : Nat) : ArenaInv (updateDates fuel t i d) := by
  obtain ⟨hlen, hfields⟩ := updateDates_fields fuel t i d
  exact ArenaInv.transport hlen (EdgeStep_updateDates fuel t i d)
    (fun j h => ((hfields j).1) ▸ h) hI

theorem lookupTable_mem {l : List (String × Nat)} {key : String} {v : Nat}
    (h : lookupTable l key = some v) : ∃ k, (k, v) ∈ l := by
  induction l with
  | nil => exact absurd h (by simp [lookupTable])
  | cons kv rest ih =>
    obtain ⟨k0, v0⟩ := kv
    rw [lookupTable] at h
    by_cases hk : k0 = key
    · rw [if_pos hk] at h
      injection h with h
      exact ⟨k0, by simp [h]⟩
    · rw [if_neg hk] at h
      obtain ⟨k, hk2⟩ := ih h
      exact ⟨k, List.mem_cons_of_mem _ hk2⟩

theorem lookupTable_append (l l2 : List (String × Nat)) (key : String) :
    lookupTable (l ++ l2) key =
      match lookupTable l key with
      | some v => some v
      | none => lookupTable l2 key := by
  induction l with
  | nil => simp [lookupTable]
  | cons kv rest ih =>
    obtain ⟨k0, v0⟩ := kv
    rw [List.cons_append, lookupTable, lookupTable]
    by_cases hk : k0 = key
    · rw [if_pos hk, if_pos hk]
    · rw [if_neg hk, if_neg hk]
      exact ih

/-- The construction invariant carried through both passes: the arena
invariant plus validity of every id-table value as an arena index. -/
structure SInv (st : BuildState) : Prop where
  inv : ArenaInv st.threads
  tab : ∀ kv ∈ st.id_table, kv.2 < st.threads.length

/-- The trailing `updateDates` wrapper of both reference-linking branches
keeps the construction invariant. -/
theorem sinv_wrap (t2 : List Container) (tab : List (String × Nat))
    (tof : List (Option Nat)) (p d : Nat) (h : SInv ⟨t2, tab, tof⟩) :
    SInv ⟨updateDates (t2.length + 1) t2 p d, tab, tof⟩ := by
  obtain ⟨hlen, -⟩ := updateDates_fields (t2.length + 1) t2 p d
  refine ⟨arenaInv_updateDates h.inv _ _ _, fun kv hkv => ?_⟩
  show kv.2 < (updateDates (t2.length + 1) t2 p d).length
  rw [hlen]
  exact h.tab kv hkv


/-- `processReference` preserves the construction invariant whenever the
referencing container is a valid, link-free message container: the
`is_descendant` guard (checked in both directions before the parent link)
feeds `guard_no_path`, and each mutation is one of the characterized
invariant-preserving shapes. -/
theorem processReference_sinv (st : BuildState) (xIdx : Nat) (r : String)
    (date : Nat) (hS : SInv st) (hx : xIdx < st.threads.length)
    (hm : (getC st.threads xIdx).message ≠ none)
    (hn : NoIn st.threads xIdx) : SInv (processReference st xIdx r date) := by
  obtain ⟨hI, htab⟩ := hS
  cases hlook : lookupTable st.id_table r with
  | some p =>
    have hp : p < st.threads.length := by
      obtain ⟨k, hk⟩ := lookupTable_mem hlook
      exact htab _ hk
    simp only [processReference, hlook]
    by_cases hgp : (isDescendantF st.threads (st.threads.length + 1)
        (getC st.threads p) (getC st.threads xIdx)
        || isDescendantF st.threads (st.threads.length + 1)
        (getC st.threads xIdx) (getC st.threads p)) = true
    · rw [if_neg (not_not_intro hgp)]
      exact sinv_wrap st.threads st.id_table st.thread_of p date ⟨hI, htab⟩
    · rw [if_pos hgp]
      have hgf : (isDescendantF st.threads (st.threads.length + 1)
          (getC st.threads p) (getC st.threads xIdx)
          || isDescendantF st.threads (st.threads.length + 1)
          (getC st.threads xIdx) (getC st.threads p)) = false := by
        revert hgp
        cases isDescendantF st.threads (st.threads.length + 1)
          (getC st.threads p) (getC st.threads xIdx) <;>
          cases isDescendantF st.threads (st.threads.length + 1)
            (getC st.threads xIdx) (getC st.threads p) <;> simp
      have hd2 := (Bool.or_eq_false_iff.mp hgf).2
      have hnp : ∀ l, ¬ RPath (EdgeStep st.threads) xIdx l p :=
        guard_no_path hI.acyc hp hd2
      set t1 := st.threads.set xIdx { getC st.threads xIdx with
        parent := some p } with ht1
      have hedge1 : ∀ u v, EdgeStep t1 u v ↔ EdgeStep st.threads u v :=
        EdgeStep_set_preserve rfl rfl
      have hmsg1 : ∀ j, (getC t1 j).message = (getC st.threads j).message :=
        getC_set_msg _ rfl
      have hlen1 : t1.length = st.threads.length := by simp [ht1]
      have hI1 : ArenaInv t1 :=
        ArenaInv.transport hlen1 hedge1 (fun j h => (hmsg1 j) ▸ h) hI
      have hx1 : xIdx < t1.length := by omega
      have hp1 : p < t1.length := by omega
      have hm1 : (getC t1 xIdx).message ≠ none := by
        rw [hmsg1]
        exact hm
      have hn1 : NoIn t1 xIdx := fun u he => hn u ((hedge1 u xIdx).mp he)
      have hnp1 : ∀ l, ¬ RPath (EdgeStep t1) xIdx l p :=
        fun l h => hnp l ((RPath.congr hedge1).mp h)
      cases hfc : (getC t1 p).first_child with
      | none =>
        have hI2 : ArenaInv (t1.set p { getC t1 p with
            first_child := some xIdx }) :=
          ArenaInv.addEdge (by simp) (EdgeStep_set_fc hp1 hfc)
            (fun i h =>
              (getC_set_msg { getC t1 p with first_child := some xIdx } rfl i)
                ▸ h) hI1 hx1 hm1 hn1 hnp1
        refine sinv_wrap (t1.set p { getC t1 p with first_child := some xIdx })
          st.id_table st.thread_of p date ⟨hI2, fun kv hkv => ?_⟩
        show kv.2 < (t1.set p _).length
        simp only [List.length_set, hlen1]
        exact htab kv hkv
      | some fc =>
        have hnfc1 : ∀ l, ¬ RPath (EdgeStep t1) xIdx l fc := by
          intro l h
          obtain ⟨l3, h3⟩ := reach_back hI1 hn1 1 [fc] p fc rfl
            (RPath.cons ⟨hp1, Or.inl hfc⟩ (RPath.refl fc)) l h
          exact hnp1 l3 h3
        have hI2 : ArenaInv (appendChild (t1.length + 1) t1 fc p xIdx) :=
          appendChild_inv (t1.length + 1) t1 fc p xIdx hI1 hx1 hm1 hn1 hnfc1
        refine sinv_wrap (appendChild (t1.length + 1) t1 fc p xIdx)
          st.id_table st.thread_of p date ⟨hI2, fun kv hkv => ?_⟩
        show kv.2 < (appendChild (t1.length + 1) t1 fc p xIdx).length
        rw [(appendChild_fields (t1.length + 1) t1 fc p xIdx).1]
        simp only [List.length_set, hlen1]
        exact htab kv hkv
  | none =>
    simp only [processReference, hlook]
    set t1 := st.threads ++ [placeholderContainer st.threads.length xIdx date]
      with ht1
    have hI1 : ArenaInv t1 := ArenaInv.pushPlaceholder hI hx hm hn
    have hlen1 : t1.length = st.threads.length + 1 := by simp [ht1]
    have htab2 : ∀ kv ∈ st.id_table ++ [(r, st.threads.length)],
        kv.2 < st.threads.length + 1 := by
      intro kv hkv
      rcases List.mem_append.mp hkv with hold | hnew
      · have := htab kv hold
        omega
      · simp only [List.mem_singleton] at hnew
        subst hnew
        simp
    by_cases hpar : (getC t1 xIdx).parent = none
    · rw [if_pos hpar]
      have hI2 : ArenaInv (t1.set xIdx { getC t1 xIdx with
          parent := some st.threads.length }) :=
        ArenaInv.transport (by simp) (EdgeStep_set_preserve rfl rfl)
          (fun j h =>
            (getC_set_msg { getC t1 xIdx with
              parent := some st.threads.length } rfl j) ▸ h) hI1
      refine sinv_wrap (t1.set xIdx { getC t1 xIdx with
          parent := some st.threads.length })
        (st.id_table ++ [(r, st.threads.length)]) st.thread_of
        st.threads.length date ⟨hI2, fun kv hkv => ?_⟩
      show kv.2 < (t1.set xIdx _).length
      rw [List.length_set, hlen1]
      exact htab2 kv hkv
    · rw [if_neg hpar]
      refine sinv_wrap t1 (st.id_table ++ [(r, st.threads.length)])
        st.thread_of st.threads.length date ⟨hI1, fun kv hkv => ?_⟩
      show kv.2 < t1.length
      rw [hlen1]
      exact htab2 kv hkv

/-- Linking the last (nearest) Reference preserves the invariant. -/
theorem linkLastRef_sinv (st : BuildState) (c : Nat) (x : ThreadEnvelope)
    (hS : SInv st) (hc : c < st.threads.length)
    (hm : (getC st.threads c).message ≠ none) (hn : NoIn st.threads c) :
    SInv (linkLastRef st c x) := by
  rw [linkLastRef]
  cases x.references.getLast? with
  | none => exact hS
  | some r => exact processReference_sinv st c r x.date hS hc hm hn

/-- One collection-pass step preserves the construction invariant. -/
theorem processStep_sinv (st : BuildState) (i : Nat) (x : ThreadEnvelope)
    (hS : SInv st) : SInv (processStep st i x) := by
  obtain ⟨hI, htab⟩ := hS
  cases hlook : lookupTable st.id_table x.message_id with
  | some tIdx =>
    have htIdx : tIdx < st.threads.length := by
      obtain ⟨k, hk⟩ := lookupTable_mem hlook
      exact htab _ hk
    simp only [processStep, hlook]
    by_cases hsome : (getC st.threads tIdx).message.isSome = true
    · rw [if_pos hsome]
      exact ⟨hI, htab⟩
    · rw [if_neg hsome]
      have hmn : (getC st.threads tIdx).message = none := by
        cases hmm : (getC st.threads tIdx).message
        · rfl
        · rw [hmm] at hsome
          simp at hsome
      have hnoin : NoIn st.threads tIdx := hI.msgNone tIdx htIdx hmn
      set t1 := st.threads.set tIdx { getC st.threads tIdx with
        date := x.date, message := some i } with ht1
      have hedge : ∀ u v, EdgeStep t1 u v ↔ EdgeStep st.threads u v :=
        EdgeStep_set_preserve rfl rfl
      have hlen1 : t1.length = st.threads.length := by simp [ht1]
      have hI1 : ArenaInv t1 := by
        refine ArenaInv.transport hlen1 hedge (fun j h => ?_) hI
        by_cases hj : j = tIdx
        · subst hj
          rw [getC_set_self _ htIdx] at h
          exact absurd h (by simp)
        · rwa [getC_set_ne _ (fun hh => hj hh.symm)] at h
      have hS1 : SInv ⟨t1, st.id_table, st.thread_of.set i (some tIdx)⟩ := by
        refine ⟨hI1, fun kv hkv => ?_⟩
        show kv.2 < t1.length
        rw [hlen1]
        exact htab kv hkv
      refine linkLastRef_sinv ⟨t1, st.id_table, st.thread_of.set i (some tIdx)⟩
        tIdx x hS1 ?_ ?_ (fun u he => hnoin u ((hedge u tIdx).mp he))
      · show tIdx < t1.length
        omega
      · show (getC t1 tIdx).message ≠ none
        rw [getC_set_self _ htIdx]
        simp
  | none =>
    simp only [processStep, hlook]
    set t1 := st.threads ++ [freshContainer st.threads.length i x.date]
      with ht1
    have hI1 : ArenaInv t1 := ArenaInv.pushNoLinks hI rfl rfl
    have hlen1 : t1.length = st.threads.length + 1 := by simp [ht1]
    have hnoin1 : NoIn t1 st.threads.length := by
      intro u he
      rcases (EdgeStep_append u st.threads.length).mp he with hold | ⟨-, hpt⟩
      · have := hI.tgt u st.threads.length hold
        omega
      · simp [freshContainer, pointsTo] at hpt
    have hmsg1 : (getC t1 st.threads.length).message ≠ none := by
      rw [ht1, getC_append_self]
      simp [freshContainer]
    have hS1 : SInv ⟨t1, st.id_table ++ [(x.message_id, st.threads.length)],
        st.thread_of.set i (some st.threads.length)⟩ := by
      refine ⟨hI1, fun kv hkv => ?_⟩
      show kv.2 < t1.length
      rw [hlen1]
      rcases List.mem_append.mp hkv with hold | hnew
      · have := htab kv hold
        omega
      · simp only [List.mem_singleton] at hnew
        subst hnew
        simp
    refine linkLastRef_sinv
      ⟨t1, st.id_table ++ [(x.message_id, st.threads.length)],
        st.thread_of.set i (some st.threads.length)⟩
      st.threads.length x hS1 ?_ hmsg1 hnoin1
    show st.threads.length < t1.length
    omega

/-- One Sent-folder step preserves the construction invariant. -/
theorem sentStep_sinv (st : BuildState) (idx : Nat) (x : ThreadEnvelope)
    (hS : SInv st) : SInv (sentStep st idx x).1 := by
  obtain ⟨hI, htab⟩ := hS
  cases hlook : lookupTable st.id_table x.message_id with
  | some c =>
    have hc : c < st.threads.length := by
      obtain ⟨k, hk⟩ := lookupTable_mem hlook
      exact htab _ hk
    simp only [sentStep, hlook]
    by_cases hsome : (getC st.threads c).message.isSome = true
    · rw [if_pos hsome]
      exact ⟨hI, htab⟩
    · rw [if_neg hsome]
      set t1 := st.threads.set c { getC st.threads c with
        message := some idx, date := x.date } with ht1
      have hlen1 : t1.length = st.threads.length := by simp [ht1]
      have hedge1 : ∀ u v, EdgeStep t1 u v ↔ EdgeStep st.threads u v :=
        EdgeStep_set_preserve rfl rfl
      have hI1 : ArenaInv t1 := by
        refine ArenaInv.transport hlen1 hedge1 (fun j h => ?_) hI
        by_cases hj : j = c
        · subst hj
          rw [ht1, getC_set_self _ hc] at h
          exact absurd h (by simp)
        · rw [ht1, getC_set_ne _ (fun hh => hj hh.symm)] at h
          exact h
      refine ⟨hI1, fun kv hkv => ?_⟩
      show kv.2 < t1.length
      rw [hlen1]
      exact htab kv hkv
  | none =>
    by_cases hirt : x.in_reply_to ≠ ""
    · cases hlook2 : lookupTable st.id_table x.in_reply_to with
      | none =>
        simp only [sentStep, hlook, hlook2]
        rw [if_pos hirt]
        exact ⟨hI, htab⟩
      | some p =>
        have hp : p < st.threads.length := by
          obtain ⟨k, hk⟩ := lookupTable_mem hlook2
          exact htab _ hk
        simp only [sentStep, hlook, hlook2]
        rw [if_pos hirt]
        set t1 := st.threads ++
          [sentContainer st.threads.length idx p x.date] with ht1
        have hI1 : ArenaInv t1 := ArenaInv.pushNoLinks hI rfl rfl
        have hlen1 : t1.length = st.threads.length + 1 := by simp [ht1]
        set t2 := t1.set st.threads.length
          { getC t1 st.threads.length with parent := some p } with ht2
        have hlen2 : t2.length = st.threads.length + 1 := by
          rw [ht2, List.length_set, hlen1]
        have hedge2 : ∀ u v, EdgeStep t2 u v ↔ EdgeStep t1 u v :=
          EdgeStep_set_preserve rfl rfl
        have hI2 : ArenaInv t2 := by
          refine ArenaInv.transport (by rw [hlen2, hlen1]) hedge2 ?_ hI1
          exact fun j h =>
            (getC_set_msg { getC t1 st.threads.length with
              parent := some p } rfl j) ▸ h
        have hc2 : st.threads.length < t2.length := by omega
        have hp2 : p < t2.length := by omega
        have hgl : getC t2 st.threads.length
            = { getC t1 st.threads.length with parent := some p } := by
          rw [ht2]
          exact getC_set_self _ (by omega)
        have hmsg2 : (getC t2 st.threads.length).message ≠ none := by
          rw [hgl]
          show (getC t1 st.threads.length).message ≠ none
          rw [ht1, getC_append_self]
          simp [sentContainer]
        have hnoin2 : NoIn t2 st.threads.length := by
          intro u he
          have he1 : EdgeStep t1 u st.threads.length :=
            (hedge2 u st.threads.length).mp he
          rcases (EdgeStep_append u st.threads.length).mp he1 with
            hold | ⟨-, hpt⟩
          · have := hI.tgt u st.threads.length hold
            omega
          · simp [sentContainer, pointsTo] at hpt
        have htab1 : ∀ kv ∈ st.id_table ++
            [(x.message_id, st.threads.length)],
            kv.2 < st.threads.length + 1 := by
          intro kv hkv
          rcases List.mem_append.mp hkv with hold | hnew
          · have := htab kv hold
            omega
          · simp only [List.mem_singleton] at hnew
            subst hnew
            simp
        by_cases hg : (isDescendantF t2 (t2.length + 1) (getC t2 p)
            (getC t2 st.threads.length)
            || isDescendantF t2 (t2.length + 1) (getC t2 st.threads.length)
            (getC t2 p)) = true
        · rw [if_pos hg]
          refine ⟨hI2, fun kv hkv => ?_⟩
          show kv.2 < t2.length
          rw [hlen2]
          exact htab1 kv hkv
        · rw [if_neg hg]
          have hgf : (isDescendantF t2 (t2.length + 1) (getC t2 p)
              (getC t2 st.threads.length)
              || isDescendantF t2 (t2.length + 1) (getC t2 st.threads.length)
              (getC t2 p)) = false := by
            revert hg
            cases isDescendantF t2 (t2.length + 1) (getC t2 p)
              (getC t2 st.threads.length) <;>
              cases isDescendantF t2 (t2.length + 1)
                (getC t2 st.threads.length) (getC t2 p) <;> simp
          have hnp2 : ∀ l, ¬ RPath (EdgeStep t2) st.threads.length l p :=
            guard_no_path hI2.acyc hp2 (Bool.or_eq_false_iff.mp hgf).2
          cases hfc : (getC t2 p).first_child with
          | none =>
            have hI3 : ArenaInv (t2.set p { getC t2 p with
                first_child := some st.threads.length }) :=
              ArenaInv.addEdge (by simp) (EdgeStep_set_fc hp2 hfc)
                (fun i h => (getC_set_msg { getC t2 p with
                  first_child := some st.threads.length } rfl i) ▸ h)
                hI2 hc2 hmsg2 hnoin2 hnp2
            have hI4 := arenaInv_updateDates hI3
              ((t2.set p { getC t2 p with
                first_child := some st.threads.length }).length + 1) p x.date
            refine ⟨hI4, fun kv hkv => ?_⟩
            show kv.2 < (updateDates _ _ p x.date).length
            rw [(updateDates_fields _ _ p x.date).1, List.length_set, hlen2]
            exact htab1 kv hkv
          | some fc =>
            have hnfc2 : ∀ l,
                ¬ RPath (EdgeStep t2) st.threads.length l fc := by
              intro l h
              obtain ⟨l3, h3⟩ := reach_back hI2 hnoin2 1 [fc] p fc rfl
                (RPath.cons ⟨hp2, Or.inl hfc⟩ (RPath.refl fc)) l h
              exact hnp2 l3 h3
            have hI3 : ArenaInv (appendChild (t2.length + 1) t2 fc p
                st.threads.length) :=
              appendChild_inv (t2.length + 1) t2 fc p st.threads.length
                hI2 hc2 hmsg2 hnoin2 hnfc2
            have hI4 := arenaInv_updateDates hI3
              ((appendChild (t2.length + 1) t2 fc p
                st.threads.length).length + 1) p x.date
            refine ⟨hI4, fun kv hkv => ?_⟩
            show kv.2 < (updateDates _ _ p x.date).length
            rw [(updateDates_fields _ _ p x.date).1,
              (appendChild_fields _ _ fc p _).1, hlen2]
            exact htab1 kv hkv
    · simp only [sentStep, hlook]
      rw [if_neg hirt]
      exact ⟨hI, htab⟩

theorem runCollection_sinv : ∀ (xs : List ThreadEnvelope) (st : BuildState)
    (i : Nat), SInv st → SInv (runCollection st i xs) := by
  intro xs
  induction xs with
  | nil => exact fun st i h => h
  | cons x xs ih => exact fun st i h => ih _ _ (processStep_sinv st i x h)

theorem runSent_sinv : ∀ (xs : List ThreadEnvelope) (st : BuildState)
    (idx : Nat), SInv st → SInv (runSent st idx xs) := by
  intro xs
  induction xs with
  | nil => exact fun st idx h => h
  | cons x xs ih => exact fun st idx h => ih _ _ (sentStep_sinv st idx x h)

theorem sinv_init (n : Nat) :
    SInv ⟨[], [], List.replicate n none⟩ :=
  ⟨ArenaInv.nil, by simp⟩

/-- Both construction passes preserve the invariant from the empty state. -/
theorem sinv_buildThreadsState (coll : List ThreadEnvelope)
    (sent : Option (List ThreadEnvelope)) :
    SInv (buildThreadsState coll sent) := by
  cases sent with
  | none => exact runCollection_sinv coll _ 0 (sinv_init coll.length)
  | some s =>
    exact runSent_sinv s _ coll.length
      (runCollection_sinv coll _ 0 (sinv_init coll.length))

/-- Soundness of the fuelled reachability check: a `true` answer exhibits a
real `first_child`/`next_sibling` path. -/
theorem reachIdxF_sound {t : List Container} : ∀ fuel a b,
    reachIdxF t fuel a b = true → ∃ l, RPath (EdgeStep t) a l b := by
  intro fuel
  induction fuel with
  | zero =>
    intro a b h
    exact absurd h (by simp [reachIdxF])
  | succ fuel ih =>
    intro a b h
    rw [reachIdxF] at h
    cases hfcm : (getC t a).first_child with
    | none =>
      rw [hfcm] at h
      cases hnsm : (getC t a).next_sibling with
      | none =>
        rw [hnsm] at h
        simp at h
        exact ⟨[], h ▸ RPath.refl a⟩
      | some w =>
        rw [hnsm] at h
        simp at h
        rcases h with h | hw
        · exact ⟨[], h ▸ RPath.refl a⟩
        · obtain ⟨l, hl⟩ := ih w b hw
          have ha : a < t.length := by
            by_contra hcon
            rw [getC_of_le (le_of_not_lt hcon)] at hnsm
            exact Option.noConfusion hnsm
          exact ⟨w :: l, RPath.cons ⟨ha, Or.inr hnsm⟩ hl⟩
    | some v =>
      rw [hfcm] at h
      have ha : a < t.length := by
        by_contra hcon
        rw [getC_of_le (le_of_not_lt hcon)] at hfcm
        exact Option.noConfusion hfcm
      cases hnsm : (getC t a).next_sibling with
      | none =>
        rw [hnsm] at h
        simp at h
        rcases h with h | hv
        · exact ⟨[], h ▸ RPath.refl a⟩
        · obtain ⟨l, hl⟩ := ih v b hv
          exact ⟨v :: l, RPath.cons ⟨ha, Or.inl hfcm⟩ hl⟩
      | some w =>
        rw [hnsm] at h
        simp at h
        rcases h with (h | hv) | hw
        · exact ⟨[], h ▸ RPath.refl a⟩
        · obtain ⟨l, hl⟩ := ih v b hv
          exact ⟨v :: l, RPath.cons ⟨ha, Or.inl hfcm⟩ hl⟩
        · obtain ⟨l, hl⟩ := ih w b hw
          exact ⟨w :: l, RPath.cons ⟨ha, Or.inr hnsm⟩ hl⟩

/-- An acyclic arena passes the executable cycle check. -/
theorem acyclicCheck_of_acyclic {t : List Container} (hA : Acyclic t) :
    acyclicCheck t = true := by
  rw [acyclicCheck, List.all_eq_true]
  intro a ha
  simp only [List.mem_range] at ha
  rw [Bool.and_eq_true]
  refine ⟨?_, ?_⟩
  · cases hfcm : (getC t a).first_child with
    | none => rfl
    | some v =>
      show (! reachIdxF t (t.length + 1) v a) = true
      cases hr : reachIdxF t (t.length + 1) v a with
      | false => rfl
      | true =>
        obtain ⟨l, hl⟩ := reachIdxF_sound (t.length + 1) v a hr
        have := hA a (v :: l) (RPath.cons ⟨ha, Or.inl hfcm⟩ hl)
        exact absurd this (by simp)
  · cases hnsm : (getC t a).next_sibling with
    | none => rfl
    | some v =>
      show (! reachIdxF t (t.length + 1) v a) = true
      cases hr : reachIdxF t (t.length + 1) v a with
      | false => rfl
      | true =>
        obtain ⟨l, hl⟩ := reachIdxF_sound (t.length + 1) v a hr
        have := hA a (v :: l) (RPath.cons ⟨ha, Or.inr hnsm⟩ hl)
        exact absurd this (by simp)

/-- C2: after `build_threads` runs on any envelope collection and optional
Sent collection — cyclic References graphs included — the resulting arena's
`first_child`/`next_sibling` link relation is acyclic: no container is
reachable from itself, and the executable cycle check agrees.  The
construction achieves this by checking `is_descendant` in both directions
before every parent link (`processReference` / `sentStep`) and skipping the
link otherwise. -/
theorem c2_build_threads_acyclic (coll : List ThreadEnvelope)
    (sent : Option (List ThreadEnvelope)) :
    Acyclic (buildThreadsState coll sent).threads ∧
    acyclicCheck (buildThreadsState coll sent).threads = true := by
  have h := (sinv_buildThreadsState coll sent).inv.acyc
  exact ⟨h, acyclicCheck_of_acyclic h⟩

/-! ### C3: root-set promotion of a synthetic single-child container -/

/-- The representative the root-set loop pushes for a parentless container
`v` (thread.rs 705-714): the lone child for a messageless container with
exactly one child, `v` itself otherwise. -/
def rootRepr (t : List Container) (v : Nat) : Nat :=
  if (getC t v).message = none then
    match (getC t v).first_child with
    | some fc => if (getC t fc).next_sibling = none then fc else v
    | none => v
  else v

theorem rootSetUnsorted_eq (st : BuildState) :
    rootSetUnsorted st = st.id_table.foldr
      (fun kv acc => if (getC st.threads kv.2).parent = none then
        rootRepr st.threads kv.2 :: acc else acc) [] := rfl

theorem rootSetUnsorted_body (t : List Container) :
    ∀ (l : List (String × Nat)) (y : Nat),
    y ∈ l.foldr (fun kv acc => if (getC t kv.2).parent = none then
        rootRepr t kv.2 :: acc else acc) []
      ↔ ∃ kv ∈ l, (getC t kv.2).parent = none ∧ y = rootRepr t kv.2 := by
  intro l
  induction l with
  | nil => simp
  | cons kv rest ih =>
    intro y
    rw [List.foldr_cons]
    by_cases hp : (getC t kv.2).parent = none
    · rw [if_pos hp]
      simp only [List.mem_cons, ih]
      constructor
      · rintro (rfl | ⟨kv2, hkv2, h1, h2⟩)
        · exact ⟨kv, by simp, hp, rfl⟩
        · exact ⟨kv2, by simp [hkv2], h1, h2⟩
      · rintro ⟨kv2, hkv2, h1, h2⟩
        rcases hkv2 with rfl | hmm2
        · exact Or.inl h2
        · exact Or.inr ⟨kv2, hmm2, h1, h2⟩
    · rw [if_neg hp, ih]
      constructor
      · rintro ⟨kv2, hkv2, h⟩
        exact ⟨kv2, List.mem_cons_of_mem _ hkv2, h⟩
      · rintro ⟨kv2, hkv2, h1, h2⟩
        rcases List.mem_cons.mp hkv2 with rfl | hmm2
        · exact absurd h1 hp
        · exact ⟨kv2, hmm2, h1, h2⟩

theorem mem_rootSetOf {st : BuildState} {y : Nat} :
    y ∈ rootSetOf st ↔ ∃ kv ∈ st.id_table,
      (getC st.threads kv.2).parent = none ∧ y = rootRepr st.threads kv.2 := by
  rw [rootSetOf, List.mem_mergeSort, rootSetUnsorted_eq,
    rootSetUnsorted_body]

/-- C3: in the state `build_threads` produces, every table entry `v` that is
parentless, messageless and has exactly one child `fc` (no sibling on the
child) is represented in the sorted root set by `fc` — and `v`, the
synthetic placeholder, never appears there at all. -/
theorem c3_root_promotion (coll : List ThreadEnvelope)
    (sent : Option (List ThreadEnvelope)) (k : String) (v fc : Nat)
    (hmem : (k, v) ∈ (buildThreadsState coll sent).id_table)
    (hpar : (getC (buildThreadsState coll sent).threads v).parent = none)
    (hmsgv : (getC (buildThreadsState coll sent).threads v).message = none)
    (hfc : (getC (buildThreadsState coll sent).threads v).first_child
      = some fc)
    (hns : (getC (buildThreadsState coll sent).threads fc).next_sibling
      = none) :
    fc ∈ rootSetOf (buildThreadsState coll sent) ∧
    v ∉ rootSetOf (buildThreadsState coll sent) := by
  obtain ⟨hI, htab⟩ := sinv_buildThreadsState coll sent
  have hv : v < (buildThreadsState coll sent).threads.length :=
    htab (k, v) hmem
  have hnoin : NoIn (buildThreadsState coll sent).threads v :=
    hI.msgNone v hv hmsgv
  have hrepr : rootRepr (buildThreadsState coll sent).threads v = fc := by
    rw [rootRepr, if_pos hmsgv]
    simp only [hfc]
    rw [if_pos hns]
  constructor
  · exact mem_rootSetOf.mpr ⟨(k, v), hmem, hpar, hrepr.symm⟩
  · intro hvin
    obtain ⟨kv2, hkv2, hp2, heq⟩ := mem_rootSetOf.mp hvin
    have hw : kv2.2 < (buildThreadsState coll sent).threads.length :=
      htab kv2 hkv2
    rw [rootRepr] at heq
    by_cases hm2 : (getC (buildThreadsState coll sent).threads kv2.2).message
        = none
    · rw [if_pos hm2] at heq
      cases hfc2 : (getC (buildThreadsState coll sent).threads
          kv2.2).first_child with
      | none =>
        simp only [hfc2] at heq
        rw [← heq] at hfc2
        rw [hfc] at hfc2
        exact Option.noConfusion hfc2
      | some fc2 =>
        simp only [hfc2] at heq
        by_cases hns2 : (getC (buildThreadsState coll sent).threads
            fc2).next_sibling = none
        · rw [if_pos hns2] at heq
          refine hnoin kv2.2 ⟨hw, Or.inl ?_⟩
          rw [hfc2, heq]
        · rw [if_neg hns2] at heq
          rw [← heq] at hfc2
          rw [hfc] at hfc2
          injection hfc2 with hfc2
          rw [← hfc2] at hns2
          exact hns2 hns
    · rw [if_neg hm2] at heq
      rw [← heq] at hm2
      exact hm2 hmsgv

/-- Witness for C3 on the spec's example: `M2` (References: `M1`) arrives
before `M1`; the root set holds `M2`'s container id 0, never the placeholder
id 1. -/
theorem c3_root_promotion_witness :
    0 ∈ rootSetOf (buildThreadsState
      [{ message_id := "M2", references := ["M1"] }] none) ∧
    1 ∉ rootSetOf (buildThreadsState
      [{ message_id := "M2", references := ["M1"] }] none) :=
  c3_root_promotion [{ message_id := "M2", references := ["M1"] }] none
    "M1" 1 0 (by decide) (by decide) (by decide) (by decide) (by decide)

/-! ### C10: duplicate Message-IDs are skipped -/

theorem isSome_updateDates {t : List Container} {c : Nat} (fuel i d : Nat)
    (h : (getC t c).message.isSome = true) :
    (getC (updateDates fuel t i d) c).message.isSome = true := by
  rw [((updateDates_fields fuel t i d).2 c).1]
  exact h

theorem isSome_set {t : List Container} {i : Nat} (c0 : Container)
    (hm : c0.message = (getC t i).message) {c : Nat}
    (h : (getC t c).message.isSome = true) :
    (getC (t.set i c0) c).message.isSome = true := by
  rw [getC_set_msg c0 hm c]
  exact h

theorem isSome_set_some {t : List Container} {i : Nat} (c0 : Container)
    (m : Nat) (hm : c0.message = some m) {c : Nat}
    (h : (getC t c).message.isSome = true) :
    (getC (t.set i c0) c).message.isSome = true := by
  rw [getC_set_eq_ite]
  by_cases hj : c = i ∧ i < t.length
  · rw [if_pos hj, hm]
    rfl
  · rw [if_neg hj]
    exact h

theorem isSome_append {t : List Container} (l2 : List Container) {c : Nat}
    (h : (getC t c).message.isSome = true) :
    (getC (t ++ l2) c).message.isSome = true := by
  by_cases hc : c < t.length
  · rw [getC_append_lt hc]
    exact h
  · rw [getC_of_le (le_of_not_lt hc)] at h
    exact absurd h (by decide)

theorem isSome_appendChild (fuel : Nat) (t : List Container)
    (iter p x : Nat) {c : Nat}
    (h : (getC t c).message.isSome = true) :
    (getC (appendChild fuel t iter p x) c).message.isSome = true := by
  rw [(appendChild_fields fuel t iter p x).2 c]
  exact h

/-- What a construction step can never undo: the id table only grows at the
end, and a container that has a message keeps one. -/
structure Persists (st st2 : BuildState) : Prop where
  tab : ∃ ext, st2.id_table = st.id_table ++ ext
  msg : ∀ c, (getC st.threads c).message.isSome = true →
    (getC st2.threads c).message.isSome = true

theorem persists_trans {a b c : BuildState} (h1 : Persists a b)
    (h2 : Persists b c) : Persists a c := by
  refine ⟨?_, fun j h => h2.msg j (h1.msg j h)⟩
  obtain ⟨e1, he1⟩ := h1.tab
  obtain ⟨e2, he2⟩ := h2.tab
  exact ⟨e1 ++ e2, by rw [he2, he1, List.append_assoc]⟩

theorem persists_processReference (st : BuildState) (xIdx : Nat) (r : String)
    (d : Nat) : Persists st (processReference st xIdx r d) := by
  cases hlook : lookupTable st.id_table r with
  | some p =>
    simp only [processReference, hlook]
    by_cases hgp : (isDescendantF st.threads (st.threads.length + 1)
        (getC st.threads p) (getC st.threads xIdx)
        || isDescendantF st.threads (st.threads.length + 1)
        (getC st.threads xIdx) (getC st.threads p)) = true
    · rw [if_neg (not_not_intro hgp)]
      exact ⟨⟨[], (List.append_nil st.id_table).symm⟩,
        fun c h => isSome_updateDates _ p d h⟩
    · rw [if_pos hgp]
      cases hfcp : (getC (st.threads.set xIdx { getC st.threads xIdx with
          parent := some p }) p).first_child with
      | none =>
        refine ⟨⟨[], (List.append_nil st.id_table).symm⟩, fun c h => ?_⟩
        apply isSome_updateDates
        apply isSome_set
        · rfl
        · apply isSome_set
          · rfl
          · exact h
      | some fc =>
        refine ⟨⟨[], (List.append_nil st.id_table).symm⟩, fun c h => ?_⟩
        apply isSome_updateDates
        apply isSome_appendChild
        apply isSome_set
        · rfl
        · exact h
  | none =>
    simp only [processReference, hlook]
    by_cases hpar : (getC (st.threads ++
        [placeholderContainer st.threads.length xIdx d]) xIdx).parent = none
    · rw [if_pos hpar]
      refine ⟨⟨[(r, st.threads.length)], rfl⟩, fun c h => ?_⟩
      apply isSome_updateDates
      apply isSome_set
      · rfl
      · apply isSome_append
        exact h
    · rw [if_neg hpar]
      refine ⟨⟨[(r, st.threads.length)], rfl⟩, fun c h => ?_⟩
      apply isSome_updateDates
      apply isSome_append
      exact h

theorem persists_linkLastRef (st : BuildState) (c : Nat)
    (x : ThreadEnvelope) : Persists st (linkLastRef st c x) := by
  rw [linkLastRef]
  cases x.references.getLast? with
  | none => exact ⟨⟨[], (List.append_nil st.id_table).symm⟩, fun j h => h⟩
  | some r => exact persists_processReference st c r x.date

theorem persists_processStep (st : BuildState) (i : Nat)
    (x : ThreadEnvelope) : Persists st (processStep st i x) := by
  cases hlook : lookupTable st.id_table x.message_id with
  | some tIdx =>
    simp only [processStep, hlook]
    by_cases hsome : (getC st.threads tIdx).message.isSome = true
    · rw [if_pos hsome]
      exact ⟨⟨[], (List.append_nil st.id_table).symm⟩, fun j h => h⟩
    · rw [if_neg hsome]
      refine persists_trans ?_ (persists_linkLastRef _ tIdx x)
      refine ⟨⟨[], (List.append_nil st.id_table).symm⟩, fun j h => ?_⟩
      apply isSome_set_some _ i
      · rfl
      · exact h
  | none =>
    simp only [processStep, hlook]
    refine persists_trans ?_ (persists_linkLastRef _ _ x)
    refine ⟨⟨[(x.message_id, st.threads.length)], rfl⟩, fun j h => ?_⟩
    apply isSome_append
    exact h

theorem persists_runCollection : ∀ (xs : List ThreadEnvelope)
    (st : BuildState) (i : Nat), Persists st (runCollection st i xs) := by
  intro xs
  induction xs with
  | nil =>
    exact fun st i =>
      ⟨⟨[], (List.append_nil st.id_table).symm⟩, fun j h => h⟩
  | cons x xs ih =>
    exact fun st i => persists_trans (persists_processStep st i x) (ih _ _)

/-- A Message-ID already assigned: the table maps it to a container that
holds a message. -/
def HasMsgId (st : BuildState) (m : String) : Prop :=
  ∃ c, lookupTable st.id_table m = some c ∧
    (getC st.threads c).message.isSome = true

theorem hasMsgId_mono {st st2 : BuildState} {m : String}
    (hp : Persists st st2) (h : HasMsgId st m) : HasMsgId st2 m := by
  obtain ⟨c, hl, hs⟩ := h
  obtain ⟨ext, he⟩ := hp.tab
  refine ⟨c, ?_, hp.msg c hs⟩
  rw [he, lookupTable_append, hl]

/-- Processing an envelope installs its Message-ID: afterwards the table
maps it to a container holding a message (filled, fresh, or already
present). -/
theorem hasMsgId_establish (st : BuildState) (i : Nat) (x : ThreadEnvelope)
    (htab : ∀ kv ∈ st.id_table, kv.2 < st.threads.length) :
    HasMsgId (processStep st i x) x.message_id := by
  cases hlook : lookupTable st.id_table x.message_id with
  | some tIdx =>
    have ht : tIdx < st.threads.length := by
      obtain ⟨k, hk⟩ := lookupTable_mem hlook
      exact htab _ hk
    simp only [processStep, hlook]
    by_cases hsome : (getC st.threads tIdx).message.isSome = true
    · rw [if_pos hsome]
      exact ⟨tIdx, hlook, hsome⟩
    · rw [if_neg hsome]
      refine hasMsgId_mono (persists_linkLastRef _ tIdx x) ⟨tIdx, hlook, ?_⟩
      show (getC (st.threads.set tIdx { getC st.threads tIdx with
        date := x.date, message := some i }) tIdx).message.isSome = true
      rw [getC_set_self _ ht]
      rfl
  | none =>
    simp only [processStep, hlook]
    refine hasMsgId_mono (persists_linkLastRef _ _ x)
      ⟨st.threads.length, ?_, ?_⟩
    · show lookupTable (st.id_table ++ [(x.message_id, st.threads.length)])
        x.message_id = some st.threads.length
      rw [lookupTable_append, hlook]
      simp [lookupTable]
    · show (getC (st.threads ++ [freshContainer st.threads.length i x.date])
        st.threads.length).message.isSome = true
      rw [getC_append_self]
      rfl

/-- The duplicate skip (thread.rs 487-489): an envelope whose Message-ID is
already assigned leaves the construction state completely unchanged. -/
theorem processStep_dup {st : BuildState} {i : Nat} {x : ThreadEnvelope}
    (h : HasMsgId st x.message_id) : processStep st i x = st := by
  obtain ⟨c, hl, hs⟩ := h
  simp [processStep, hl, hs]

theorem runCollection_append : ∀ (as bs : List ThreadEnvelope)
    (st : BuildState) (i : Nat),
    runCollection st i (as ++ bs)
      = runCollection (runCollection st i as) (i + as.length) bs := by
  intro as
  induction as with
  | nil =>
    intro bs st i
    simp [runCollection]
  | cons a as ih =>
    intro bs st i
    show runCollection (processStep st i a) (i + 1) (as ++ bs)
      = runCollection (runCollection (processStep st i a) (i + 1) as)
        (i + (as.length + 1)) bs
    rw [ih]
    congr 1
    omega

theorem getD_set_ne (l : List (Option Nat)) (i j : Nat) (v : Option Nat)
    (hj : j ≠ i) : (l.set i v).getD j none = l.getD j none := by
  simp [List.getD, List.getElem?_set_ne (show i ≠ j from fun h => hj h.symm)]

theorem processReference_thread_of (st : BuildState) (xIdx : Nat)
    (r : String) (d : Nat) :
    (processReference st xIdx r d).thread_of = st.thread_of := by
  cases hlook : lookupTable st.id_table r with
  | some p =>
    simp only [processReference, hlook]
    split_ifs <;> rfl
  | none =>
    simp only [processReference, hlook]

theorem linkLastRef_thread_of (st : BuildState) (c : Nat)
    (x : ThreadEnvelope) : (linkLastRef st c x).thread_of = st.thread_of := by
  rw [linkLastRef]
  cases x.references.getLast? with
  | none => rfl
  | some r => exact processReference_thread_of _ c r x.date

/-- A collection step writes the thread index only at its own envelope
position. -/
theorem processStep_thread_of (st : BuildState) (i : Nat)
    (x : ThreadEnvelope) (j : Nat) (hj : j ≠ i) :
    (processStep st i x).thread_of.getD j none
      = st.thread_of.getD j none := by
  cases hlook : lookupTable st.id_table x.message_id with
  | some tIdx =>
    simp only [processStep, hlook]
    by_cases hsome : (getC st.threads tIdx).message.isSome = true
    · rw [if_pos hsome]
    · rw [if_neg hsome, linkLastRef_thread_of]
      show (st.thread_of.set i (some tIdx)).getD j none
        = st.thread_of.getD j none
      exact getD_set_ne _ i j _ hj
  | none =>
    simp only [processStep, hlook]
    rw [linkLastRef_thread_of]
    show (st.thread_of.set i (some st.threads.length)).getD j none
      = st.thread_of.getD j none
    exact getD_set_ne _ i j _ hj

theorem runCollection_thread_of : ∀ (xs : List ThreadEnvelope)
    (st : BuildState) (i j : Nat), (j < i ∨ i + xs.length ≤ j) →
    (runCollection st i xs).thread_of.getD j none
      = st.thread_of.getD j none := by
  intro xs
  induction xs with
  | nil => exact fun st i j h => rfl
  | cons x xs ih =>
    intro st i j h
    have hne : j ≠ i := by
      rcases h with h | h
      · omega
      · simp only [List.length_cons] at h
        omega
    have h2 : j < i + 1 ∨ (i + 1) + xs.length ≤ j := by
      rcases h with h | h
      · left
        omega
      · right
        simp only [List.length_cons] at h
        omega
    show (runCollection (processStep st i x) (i + 1) xs).thread_of.getD j none
      = st.thread_of.getD j none
    rw [ih (processStep st i x) (i + 1) j h2]
    exact processStep_thread_of st i x j hne

theorem sentStep_thread_of (st : BuildState) (idx : Nat)
    (x : ThreadEnvelope) : (sentStep st idx x).1.thread_of = st.thread_of := by
  cases hlook : lookupTable st.id_table x.message_id with
  | some c =>
    simp only [sentStep, hlook]
    split_ifs <;> rfl
  | none =>
    cases hlook2 : lookupTable st.id_table x.in_reply_to with
    | none =>
      simp only [sentStep, hlook, hlook2]
      split_ifs <;> rfl
    | some p =>
      simp only [sentStep, hlook, hlook2]
      split_ifs <;> rfl

theorem runSent_thread_of : ∀ (xs : List ThreadEnvelope) (st : BuildState)
    (idx : Nat), (runSent st idx xs).thread_of = st.thread_of := by
  intro xs
  induction xs with
  | nil => exact fun st idx => rfl
  | cons x xs ih =>
    intro st idx
    show (runSent (sentStep st idx x).1 (sentStep st idx x).2 xs).thread_of
      = st.thread_of
    rw [ih _ _, sentStep_thread_of]

theorem replicate_none_getD : ∀ (n j : Nat),
    (List.replicate n (none : Option Nat)).getD j none = none := by
  intro n
  induction n with
  | zero => exact fun j => rfl
  | succ n ih =>
    intro j
    cases j with
    | zero => rfl
    | succ j => exact ih j

/-- C10: when an envelope's Message-ID already occurred earlier in the
collection, the later duplicate's step leaves the construction state
completely unchanged — it gets no container, contributes no links and no
table entry — and its thread index is still unset in the final
`build_threads` state. -/
theorem c10_duplicate_skip (pre mid post : List ThreadEnvelope)
    (x y : ThreadEnvelope) (sent : Option (List ThreadEnvelope))
    (hdup : y.message_id = x.message_id) :
    runCollection ⟨[], [], List.replicate
        (pre ++ x :: mid ++ y :: post).length none⟩ 0
        ((pre ++ x :: mid) ++ [y])
      = runCollection ⟨[], [], List.replicate
        (pre ++ x :: mid ++ y :: post).length none⟩ 0 (pre ++ x :: mid)
    ∧ (buildThreadsState (pre ++ x :: mid ++ y :: post) sent).thread_of.getD
        (pre.length + 1 + mid.length) none = none := by
  set n := (pre ++ x :: mid ++ y :: post).length with hn
  have htabP := (runCollection_sinv pre ⟨[], [], List.replicate n none⟩ 0
    (sinv_init n)).tab
  have hest : HasMsgId (processStep (runCollection ⟨[], [],
      List.replicate n none⟩ 0 pre) (0 + pre.length) x) x.message_id :=
    hasMsgId_establish _ _ x htabP
  have hA : HasMsgId (runCollection ⟨[], [], List.replicate n none⟩ 0
      (pre ++ x :: mid)) x.message_id := by
    rw [runCollection_append pre (x :: mid)]
    exact hasMsgId_mono (persists_runCollection mid _ _) hest
  have hAy : HasMsgId (runCollection ⟨[], [], List.replicate n none⟩ 0
      (pre ++ x :: mid)) y.message_id := by
    rw [hdup]
    exact hA
  constructor
  · rw [runCollection_append (pre ++ x :: mid) [y]]
    exact processStep_dup hAy
  · have hbts : (buildThreadsState (pre ++ x :: mid ++ y :: post)
        sent).thread_of = (runCollection ⟨[], [], List.replicate n none⟩ 0
        (pre ++ x :: mid ++ y :: post)).thread_of := by
      cases sent with
      | none => rfl
      | some s => exact runSent_thread_of s _ _
    rw [hbts]
    have hcoll : pre ++ x :: mid ++ y :: post
        = (pre ++ x :: mid) ++ y :: post := by simp
    rw [hcoll, runCollection_append (pre ++ x :: mid) (y :: post)]
    show (runCollection (processStep (runCollection ⟨[], [],
        List.replicate n none⟩ 0 (pre ++ x :: mid))
        (0 + (pre ++ x :: mid).length) y)
        ((0 + (pre ++ x :: mid).length) + 1) post).thread_of.getD
        (pre.length + 1 + mid.length) none = none
    rw [processStep_dup hAy]
    rw [runCollection_thread_of post
      (runCollection ⟨[], [], List.replicate n none⟩ 0 (pre ++ x :: mid))
      ((0 + (pre ++ x :: mid).length) + 1) (pre.length + 1 + mid.length)
      (Or.inl (by simp only [List.length_append, List.length_cons]; omega))]
    rw [runCollection_thread_of (pre ++ x :: mid)
      ⟨[], [], List.replicate n none⟩ 0 (pre.length + 1 + mid.length)
      (Or.inr (by simp only [List.length_append, List.length_cons]; omega))]
    exact replicate_none_getD n _

/-- Witness for C10: two envelopes with Message-ID `A`; the second step is
the identity and the duplicate's thread index stays unset. -/
theorem c10_duplicate_skip_witness :
    runCollection ⟨[], [], List.replicate 2 none⟩ 0
        [{ message_id := "A" }, { message_id := "A", date := 5 }]
      = runCollection ⟨[], [], List.replicate 2 none⟩ 0 [{ message_id := "A" }]
    ∧ (buildThreadsState [{ message_id := "A" },
        { message_id := "A", date := 5 }] none).thread_of.getD 1 none
      = none :=
  c10_duplicate_skip [] [] [] { message_id := "A" }
    { message_id := "A", date := 5 } none rfl
